import Mathlib

/-!
Verification of the `wasm-core` crate of `gis-data-converter` against its
natural-language specification.

The crate under `src/wasm-core/src` has four files: `lib.rs` (pipeline entry
points and metadata analysis), `mvt_encoder.rs` (Mapbox Vector Tile layer
encoding), `pmtiles_encoder.rs` (PMTiles v3 archive assembly, Hilbert tile
ids, varint and zig-zag encodings) and `wasm_api.rs` (browser glue, out of
scope).  Machine integers (`u8`, `u32`, `u64`, `i64`) are embedded as `ℕ` or
`ℤ` with explicit `% 2^w` at the points where the Rust code performs a
narrowing cast or a wrapping operation.  Byte buffers are `List ℕ` whose
elements are below 256.  The gzip compressor (`flate2`), the protobuf
serialiser (`prost`) and the JSON serialiser (`serde_json`) are external
crates, so they enter the model as abstract function parameters; everything
the claims talk about is independent of their behaviour.

Namespaces mirror the Rust modules.
-/

/-- Decidable equality for `Except`, so that concrete runs of the fallible
encoders can be checked by `decide`. -/
instance {α β : Type} [DecidableEq α] [DecidableEq β] : DecidableEq (Except α β) := fun x y =>
  match x, y with
  | .error a, .error b =>
    if h : a = b then .isTrue (by rw [h]) else .isFalse (fun hh => by cases hh; exact h rfl)
  | .ok a, .ok b =>
    if h : a = b then .isTrue (by rw [h]) else .isFalse (fun hh => by cases hh; exact h rfl)
  | .error _, .ok _ => .isFalse (fun hh => by cases hh)
  | .ok _, .error _ => .isFalse (fun hh => by cases hh)

namespace PmtilesEncoder

/-- Quadrant rotation/flip of the Hilbert walk (source: `rot` in
`pmtiles_encoder.rs`).  The source mutates `x` and `y` in place; here the
final pair is returned.  When `ry` is clear and `rx` is set the source first
reflects both coordinates through `n - 1` and then swaps them. -/
def rot (n x y : ℕ) (rx ry : Bool) : ℕ × ℕ :=
  if ry then (x, y)
  else if rx then (n - 1 - y, n - 1 - x)
  else (y, x)

/-- The while-loop of `xy_to_hilbert`.  `hilbertLoop n k x y` runs the loop
body for `s = 2^(k-1), 2^(k-2), …, 1`; the test `(x as u64) & s != 0` with
`s = 2^(k-1)` is bit `k-1` of `x`, and `3 * rx ^ ry` is the bitwise XOR the
source computes on `u64`.  The source accumulates `d += s*s*q` across
iterations; summing the contribution before the recursive call yields the
same total. -/
def hilbertLoop (n : ℕ) : ℕ → ℕ → ℕ → ℕ
  | 0, _, _ => 0
  | k + 1, x, y =>
    let s := 2 ^ k
    let rx := x.testBit k
    let ry := y.testBit k
    let p := rot n x y rx ry
    s * s * ((if rx then 3 else 0) ^^^ (if ry then 1 else 0)) + hilbertLoop n k p.1 p.2

/-- Hilbert index of `(x, y)` on the `2^z × 2^z` grid (source:
`xy_to_hilbert` in `pmtiles_encoder.rs`).  Coordinates are clamped to
`2^z - 1` first, `z = 0` returns `0`, and otherwise the loop starts at
`s = n >> 1 = 2^(z-1)`, i.e. `z` iterations. -/
def xy_to_hilbert (x y z : ℕ) : ℕ :=
  let max_coord := if 0 < z then 2 ^ z - 1 else 0
  let x' := min x max_coord
  let y' := min y max_coord
  if z = 0 then 0 else hilbertLoop (2 ^ z) z x' y'

/-- Tile id of `z/x/y` (source: `coord_to_tile_id`): the zoom in the top
8 bits, OR-ed with the Hilbert index.  `z` comes from a `u8`, so
`(z as u64) << 56` never wraps. -/
def coord_to_tile_id (z x y : ℕ) : ℕ :=
  ((z % 256) <<< 56) ||| xy_to_hilbert x y z

/-- Body of the unsigned-LEB128 loop of `write_varint`, with an explicit
iteration budget.  On `u64` the source loop runs at most `⌈64/7⌉ = 10`
times, so ten units of fuel are exact for every `u64` input. -/
def write_varint_loop : ℕ → ℕ → List ℕ
  | 0, _ => []
  | fuel + 1, v =>
    if v / 128 = 0 then [v % 128]
    else (v % 128 + 128) :: write_varint_loop fuel (v / 128)

/-- Unsigned LEB128 bytes of a `u64` value (source: `write_varint`).  The
source appends to a buffer; here the appended bytes are returned.  The
argument is reduced mod `2^64` to reflect the `u64` parameter type. -/
def write_varint (v : ℕ) : List ℕ :=
  write_varint_loop 10 (v % 2 ^ 64)

/-- Zig-zag encoding of an `i64` (source: `zigzag_encode` in
`pmtiles_encoder.rs`).  On the `i64` range, `((v << 1) ^ (v >> 63)) as u64`
is `2v` for `v ≥ 0` and `-2v - 1` for `v < 0`, reduced mod `2^64` by the
cast. -/
def zigzag_encode (v : ℤ) : ℕ :=
  (if 0 ≤ v then 2 * v else -(2 * v) - 1).toNat % 2 ^ 64

end PmtilesEncoder

/-- Decoder for standard unsigned LEB128 (7 payload bits per byte,
little-endian groups, `0x80` continuation bit).  This is the claim-side
definition used to state that decoding is a left inverse of
`PmtilesEncoder.write_varint`; it is not part of the source. -/
def leb128_decode : List ℕ → Option ℕ
  | [] => none
  | b :: rest =>
    if b < 128 then some b
    else (leb128_decode rest).map fun v => b % 128 + 128 * v

namespace MvtEncoder

/-- JSON property values as consumed by the MVT encoder (`serde_json::Value`
restricted to the variants the encoder distinguishes).  `int` is a number
representable as `i64` (the `as_i64` branch); `double` is the `as_f64`
branch, carried by its decimal string form because the source itself only
ever hashes a double through `f64::to_string` (floating point stays outside
the embedding).  Arrays and objects fall into the source's catch-all arms
exactly like `null`, so `null` stands for the whole catch-all class. -/
inductive JsonValue where
  | str (s : String)
  | int (n : ℤ)
  | double (s : String)
  | bool (b : Bool)
  | null
deriving DecidableEq, Repr

/-- MVT `Value` message (prost-generated struct in `vector_tile.rs`); only
the four fields the source ever sets are modelled, all others stay at their
protobuf default.  `double_value` carries the decimal string form of the
`f64`. -/
structure MvtValue where
  string_value : Option String := none
  double_value : Option String := none
  int_value : Option ℤ := none
  bool_value : Option Bool := none
deriving DecidableEq, Repr

/-- Hash key for deduplicating values (source: `enum ValueKey`); doubles are
keyed by their `to_string` form. -/
inductive ValueKey where
  | string (s : String)
  | int (n : ℤ)
  | double (s : String)
  | bool (b : Bool)
deriving DecidableEq, Repr

/-- Source: `ValueKey::from_json`.  Numbers take the `as_i64` branch when
`i64`-representable, else the `as_f64`-`to_string` branch; every other JSON
variant maps to `ValueKey::String(String::new())`. -/
def ValueKey.from_json : JsonValue → ValueKey
  | .str s => .string s
  | .int n => .int n
  | .double s => .double s
  | .bool b => .bool b
  | .null => .string ""

/-- Source: `json_to_mvt_value`. -/
def json_to_mvt_value : JsonValue → MvtValue
  | .str s => { string_value := some s }
  | .int n => { int_value := some n }
  | .double s => { double_value := some s }
  | .bool b => { bool_value := some b }
  | .null => {}

/-- Geometry type enum of the vector-tile protobuf schema (values
Unknown = 0, Point = 1, Linestring = 2, Polygon = 3). -/
inductive GeomType where
  | unknown
  | point
  | linestring
  | polygon
deriving DecidableEq, Repr

/-- Numeric protobuf value of a `GeomType` (the `geom_type as i32` cast). -/
def GeomType.code : GeomType → ℕ
  | .unknown => 0
  | .point => 1
  | .linestring => 2
  | .polygon => 3

/-- Modelled from the spec: `tiler::TileGeometry` (module `tiler.rs` is not
under `src/`).  Section 3 of the spec gives a TileFeature geometry as
Point / LineString / Polygon over signed tile-local integer coordinates,
which matches exactly the patterns `mvt_encoder.rs` destructures. -/
inductive TileGeometry where
  | point (x y : ℤ)
  | lineString (coords : List (ℤ × ℤ))
  | polygon (rings : List (List (ℤ × ℤ)))
deriving DecidableEq, Repr

/-- Modelled from the spec: `tiler::TileFeature` (module `tiler.rs` is not
under `src/`): a geometry plus string-keyed JSON properties, iterated in a
fixed order by the encoder. -/
structure TileFeature where
  geometry : TileGeometry
  properties : List (String × JsonValue)
deriving DecidableEq, Repr

/-- Zig-zag encoding on `i32` (source: `zigzag_encode` in `mvt_encoder.rs`):
`((n << 1) ^ (n >> 31)) as u32` equals `2n` for `n ≥ 0` and `-2n - 1` for
`n < 0`, reduced mod `2^32` by the cast. -/
def zigzag_encode (n : ℤ) : ℕ :=
  (if 0 ≤ n then 2 * n else -(2 * n) - 1).toNat % 2 ^ 32

/-- Source: `command_integer`, `(id & 0x7) | (count << 3)` on `u32`. -/
def command_integer (id count : ℕ) : ℕ :=
  (id &&& 7) ||| ((count <<< 3) % 2 ^ 32)

/-- The `for i in 1..` delta loops: zig-zag encoded coordinate deltas of a
path, each point relative to its predecessor. -/
def deltaPairs : (ℤ × ℤ) → List (ℤ × ℤ) → List ℕ
  | _, [] => []
  | prev, c :: rest =>
    zigzag_encode (c.1 - prev.1) :: zigzag_encode (c.2 - prev.2) :: deltaPairs c rest

/-- Command stream of one polygon ring (body of the ring loop in
`encode_geometry`): rings with fewer than 4 points are skipped via
`continue`, otherwise MoveTo the first point, LineTo across
`point_count - 1` deltas where `point_count = ring.len() - 1` (the closing
GeoJSON point is dropped), then ClosePath. -/
def ringCommands (ring : List (ℤ × ℤ)) : List ℕ :=
  if ring.length < 4 then []
  else
    match ring.take (ring.length - 1) with
    | [] => []
    | r0 :: ptail =>
      [command_integer 1 1, zigzag_encode r0.1, zigzag_encode r0.2]
      ++ (if 1 < ring.length - 1 then
            command_integer 2 (ring.length - 1 - 1) :: deltaPairs r0 ptail
          else [])
      ++ [command_integer 7 1]

/-- Source: `encode_geometry` in `mvt_encoder.rs`. -/
def encode_geometry : TileGeometry → Except String (GeomType × List ℕ)
  | .point x y =>
    .ok (.point, [command_integer 1 1, zigzag_encode x, zigzag_encode y])
  | .lineString coords =>
    match coords with
    | [] => .error "LineString is empty"
    | c0 :: rest =>
      .ok (.linestring,
        [command_integer 1 1, zigzag_encode c0.1, zigzag_encode c0.2]
        ++ (if rest.length = 0 then []
            else command_integer 2 rest.length :: deltaPairs c0 rest))
  | .polygon rings =>
    if rings = [] then .error "Polygon is empty"
    else .ok (.polygon, (rings.map ringCommands).flatten)

/-- Association-list lookup, the semantic content of the `HashMap::get`
calls of the dictionary builder (first matching binding wins; the encoder
never inserts a key twice). -/
def assocLookup {α β : Type} [DecidableEq α] : List (α × β) → α → Option β
  | [], _ => none
  | (a, b) :: rest, k => if k = a then some b else assocLookup rest k

/-- The four dictionary accumulators of `encode_tile`: `keys`, `values`,
`key_index`, `value_index`.  The two index maps are `HashMap`s in the
source, embedded as association lists. -/
structure DictState where
  keys : List String
  values : List MvtValue
  key_index : List (String × ℕ)
  value_index : List (ValueKey × ℕ)
deriving DecidableEq, Repr

/-- The "get or add key index" block of `encode_tile`. -/
def internKey (st : DictState) (k : String) : DictState × ℕ :=
  match assocLookup st.key_index k with
  | some i => (st, i)
  | none =>
    let i := st.keys.length
    ({ st with keys := st.keys ++ [k], key_index := (k, i) :: st.key_index }, i)

/-- The "get or add value index" block of `encode_tile`. -/
def internValue (st : DictState) (v : JsonValue) : DictState × ℕ :=
  let vk := ValueKey.from_json v
  match assocLookup st.value_index vk with
  | some i => (st, i)
  | none =>
    let i := st.values.length
    ({ st with values := st.values ++ [json_to_mvt_value v],
                value_index := (vk, i) :: st.value_index }, i)

/-- The property loop of `encode_tile`: interns every `(key, value)` pair of
one feature in order and collects the `tags` array `[key_idx, value_idx, …]`. -/
def encodeFeatureTags : DictState → List (String × JsonValue) → DictState × List ℕ
  | st, [] => (st, [])
  | st, (k, v) :: rest =>
    let p1 := internKey st k
    let p2 := internValue p1.1 v
    let p3 := encodeFeatureTags p2.1 rest
    (p3.1, p1.2 :: p2.2 :: p3.2)

/-- MVT `Feature` message; `typ` is the Rust field `r#type`. -/
structure MvtFeature where
  id : Option ℕ
  tags : List ℕ
  typ : Option ℕ
  geometry : List ℕ
deriving DecidableEq, Repr

/-- The feature loop of `encode_tile` (`features.iter().enumerate()`): for
each feature, intern its properties into the running dictionaries, encode
its geometry (errors abort the whole tile), and emit the `Feature` message
with `id = Some(idx)`. -/
def encodeFeatures : DictState → ℕ → List TileFeature → Except String (DictState × List MvtFeature)
  | st, _, [] => .ok (st, [])
  | st, idx, f :: rest =>
    let p := encodeFeatureTags st f.properties
    match encode_geometry f.geometry with
    | .error e => .error e
    | .ok (gt, geom) =>
      match encodeFeatures p.1 (idx + 1) rest with
      | .error e => .error e
      | .ok (st2, feats) =>
        .ok (st2, { id := some idx, tags := p.2, typ := some gt.code, geometry := geom } :: feats)

/-- MVT `Layer` message. -/
structure Layer where
  version : ℕ
  name : String
  features : List MvtFeature
  keys : List String
  values : List MvtValue
  extent : Option ℕ
deriving DecidableEq, Repr

/-- `encode_tile` up to and including the `Layer` construction (everything
before the final protobuf serialisation): empty feature slice fails, else
the dictionaries and features are built and framed as a version-2 layer of
extent 4096. -/
def build_layer (features : List TileFeature) (layer_name : String) : Except String Layer :=
  if features = [] then .error "Features are empty"
  else
    match encodeFeatures ⟨[], [], [], []⟩ 0 features with
    | .error e => .error e
    | .ok (st, feats) =>
      .ok { version := 2, name := layer_name, features := feats,
            keys := st.keys, values := st.values, extent := some 4096 }

/-- Source: `encode_tile` in `mvt_encoder.rs`.  The prost serialisation of
the single-layer `Tile` message is an external crate, abstracted as
`protoEncode`. -/
def encode_tile (protoEncode : Layer → List ℕ) (features : List TileFeature)
    (layer_name : String) : Except String (List ℕ) :=
  match build_layer features layer_name with
  | .error e => .error e
  | .ok layer => .ok (protoEncode layer)

end MvtEncoder

/-- Source: `struct TileCoord` in `lib.rs` (`z: u8`, `x: u32`, `y: u32`). -/
structure TileCoord where
  z : ℕ
  x : ℕ
  y : ℕ
deriving DecidableEq, Repr

namespace PmtilesEncoder

/-- PMTiles directory entry (source: `struct TileEntry` in
`pmtiles_encoder.rs`): `tile_id: u64`, `offset: usize`, `length: u32`,
`data: Vec<u8>`. -/
structure TileEntry where
  tile_id : ℕ
  offset : ℕ
  length : ℕ
  data : List ℕ
deriving DecidableEq, Repr

/-- Wrapping subtraction on `u64`, the semantics of `a - b` for `u64`
operands. -/
def wsub64 (a b : ℕ) : ℕ :=
  (2 ^ 64 + a % 2 ^ 64 - b % 2 ^ 64) % 2 ^ 64

/-- Section 1 of the directory (`tile_ids`, delta encoded): the loop
carries `last_tile_id` (initially 0) and writes
`entry.tile_id - last_tile_id`, a `u64` subtraction, as an unsigned
varint. -/
def tileIdSection : ℕ → List TileEntry → List ℕ
  | _, [] => []
  | last, e :: rest => write_varint (wsub64 e.tile_id last) ++ tileIdSection e.tile_id rest

/-- Section 2 of the directory (`run_lengths`): one varint `1` per entry. -/
def runLengthSection (entries : List TileEntry) : List ℕ :=
  (entries.map fun _ => write_varint 1).flatten

/-- Section 3 of the directory (`lengths`, delta encoded): zig-zag of
`(entry.length as i64) - (last_length as i64)`; both casts are exact since
`length` is a `u32`. -/
def lengthSection : ℕ → List TileEntry → List ℕ
  | _, [] => []
  | last, e :: rest =>
    write_varint (zigzag_encode ((e.length : ℤ) - (last : ℤ))) ++ lengthSection e.length rest

/-- Section 4 of the directory (`offsets`, delta encoded), like section 3;
the `(entry.offset as i64)` cast is exact for offsets below `2^63`, which
the claims assume of `usize` offsets. -/
def offsetSection : ℕ → List TileEntry → List ℕ
  | _, [] => []
  | last, e :: rest =>
    write_varint (zigzag_encode ((e.offset : ℤ) - (last : ℤ))) ++ offsetSection e.offset rest

/-- The uncompressed directory buffer (`dir_buffer` in `encode_directory`):
a varint entry count (`entries.len() as u64`) followed by the four
sections. -/
def directoryBytes (entries : List TileEntry) : List ℕ :=
  write_varint entries.length
  ++ tileIdSection 0 entries
  ++ runLengthSection entries
  ++ lengthSection 0 entries
  ++ offsetSection 0 entries

/-- Source: `encode_directory`: the directory buffer gzip-compressed as a
whole.  `gzip` abstracts the `flate2` encoder (an external crate); its
only failure mode (`CompressionFailed`) is outside every claim, so it is
modelled as total. -/
def encode_directory (gzip : List ℕ → List ℕ) (entries : List TileEntry) : List ℕ :=
  gzip (directoryBytes entries)

/-- Little-endian bytes of `v`, `k` bytes long. -/
def leBytes : ℕ → ℕ → List ℕ
  | 0, _ => []
  | k + 1, v => v % 256 :: leBytes k (v / 256)

/-- `write_u64::<LittleEndian>`: eight little-endian bytes of a `u64`. -/
def le64 (v : ℕ) : List ℕ := leBytes 8 (v % 2 ^ 64)

/-- `write_i32::<LittleEndian>`: four little-endian bytes of an `i32` in
two's complement. -/
def le32i (v : ℤ) : List ℕ := leBytes 4 (v % 2 ^ 32).toNat

/-- `write_i8`: one two's-complement byte. -/
def i8Byte (v : ℤ) : List ℕ := [(v % 2 ^ 8).toNat]

/-- Tile metadata (source: `struct TileMetadata` in `lib.rs`) restricted to
the fields the archive encoder reads.  In the source `bounds` and `center`
are `f64` degrees which `write_header` converts by
`(value * 10_000_000.0) as i32`; floating point is outside the embedding,
so the model carries the already-converted `i32` values (the `*_e7`
fields).  The remaining fields (`layer_name`, `feature_count`, `fields`,
`attributes`, `geometry_type`) feed only the serde-JSON stage, which is
abstracted, and are not modelled. -/
structure TileMetadata where
  min_zoom : ℕ
  max_zoom : ℕ
  min_lon_e7 : ℤ
  min_lat_e7 : ℤ
  max_lon_e7 : ℤ
  max_lat_e7 : ℤ
  center_lon_e7 : ℤ
  center_lat_e7 : ℤ
deriving DecidableEq, Repr

/-- Source: `write_header`: the exact 127-byte PMTiles v3 header.  Magic
`"PMTiles"` plus version 3, then the eleven `u64` fields (root directory
offset/length, JSON metadata offset/length, leaf directories 0/0, tile
data offset/length, addressed/entries/contents counts all equal to
`tile_count`), the four flag bytes `clustered = 1`,
`internal_compression = 2` (gzip), `tile_compression = 2` (gzip),
`tile_type = 1` (MVT), the zoom range, the four e7 bounds, and
`center_zoom = (min_zoom + max_zoom) / 2` (a `u8` division re-cast to
`i8`) with the e7 centre. -/
def write_header (metadata : TileMetadata) (tile_count : ℕ)
    (root_directory_offset root_directory_length json_metadata_offset
      json_metadata_length tile_data_offset tile_data_length : ℕ) : List ℕ :=
  [80, 77, 84, 105, 108, 101, 115, 3]
  ++ le64 root_directory_offset ++ le64 root_directory_length
  ++ le64 json_metadata_offset ++ le64 json_metadata_length
  ++ le64 0 ++ le64 0
  ++ le64 tile_data_offset ++ le64 tile_data_length
  ++ le64 tile_count ++ le64 tile_count ++ le64 tile_count
  ++ [1, 2, 2, 1]
  ++ [metadata.min_zoom % 256, metadata.max_zoom % 256]
  ++ le32i metadata.min_lon_e7 ++ le32i metadata.min_lat_e7
  ++ le32i metadata.max_lon_e7 ++ le32i metadata.max_lat_e7
  ++ i8Byte (((metadata.min_zoom + metadata.max_zoom) / 2 : ℕ) : ℤ)
  ++ le32i metadata.center_lon_e7 ++ le32i metadata.center_lat_e7

/-- The entry list first collected by `encode_pmtiles`: one `TileEntry` per
input tile with its Hilbert-based tile id, `offset = 0` (assigned later)
and the uncompressed length (`data.len() as u32`). -/
def initialEntries (tiles : List (TileCoord × List ℕ)) : List TileEntry :=
  tiles.map fun t =>
    { tile_id := coord_to_tile_id t.1.z t.1.x t.1.y, offset := 0,
      length := t.2.length % 2 ^ 32, data := t.2 }

/-- The `tile_entries.sort_by_key(|e| e.tile_id)` step.  Rust's
`sort_by_key` is a stable sort on the key order, and a stable sort's
output is uniquely determined by the input and the key order, so any
stable sorting algorithm is an exact model; insertion sort is used because
it is structurally recursive (so concrete runs reduce). -/
def sortEntries (entries : List TileEntry) : List TileEntry :=
  entries.insertionSort fun a b => a.tile_id ≤ b.tile_id

/-- The compression loop of `encode_pmtiles`: gzip each entry's data in
sorted order, record the compressed length (`len() as u32`) and the
running offset relative to the start of the tile-data region
(`current_relative_offset`, threaded as the second argument). -/
def compressEntries (gzip : List ℕ → List ℕ) : List TileEntry → ℕ → List TileEntry
  | [], _ => []
  | e :: rest, off =>
    let cd := gzip e.data
    { tile_id := e.tile_id, offset := off, length := cd.length % 2 ^ 32, data := cd }
      :: compressEntries gzip rest (off + cd.length % 2 ^ 32)

/-- The sorted, compressed, offset-annotated entry list that
`encode_pmtiles` feeds to `encode_directory` and whose blobs it writes. -/
def tile_entries_of (gzip : List ℕ → List ℕ) (tiles : List (TileCoord × List ℕ)) :
    List TileEntry :=
  compressEntries gzip (sortEntries (initialEntries tiles)) 0

/-- Source: `encode_pmtiles`.  `gzip` abstracts the `flate2` encoder and
`json_metadata` stands for the gzipped `generate_json_metadata` output
(serde-JSON over `f64` metadata, both external to the embedding).  An
empty tile list fails with "Tiles are empty"; otherwise the output is the
127-byte header, the gzipped directory, the gzipped JSON metadata, and the
compressed tile blobs in sorted order, with the region offsets
`root = 127`, `json = root + directory length`,
`tile data = json + json length` recorded in the header. -/
def encode_pmtiles (gzip : List ℕ → List ℕ) (json_metadata : List ℕ)
    (metadata : TileMetadata) (tiles : List (TileCoord × List ℕ)) :
    Except String (List ℕ) :=
  if tiles = [] then .error "Tiles are empty"
  else
    let entries := tile_entries_of gzip tiles
    let tile_data_length := (entries.map (·.length)).sum
    let directory_data := encode_directory gzip entries
    let root_directory_offset := 127
    let json_metadata_offset := root_directory_offset + directory_data.length
    let tile_data_offset := json_metadata_offset + json_metadata.length
    .ok (write_header metadata entries.length root_directory_offset
          directory_data.length json_metadata_offset json_metadata.length
          tile_data_offset tile_data_length
        ++ directory_data ++ json_metadata ++ (entries.map (·.data)).flatten)

end PmtilesEncoder

namespace WasmLib

/-- Source: `struct TileFile` in `lib.rs`, with the tile coordinate kept
structured.  The source stores `path = "z/x/y.pbf"` (from
`TileCoord::to_path`) and `generate_pmtiles` re-parses that string back to
the same `(z, x, y)` triple; the format-and-reparse round trip is the
identity on the coordinate, which is what this field records. -/
structure TileFile where
  coord : TileCoord
  data : List ℕ
deriving DecidableEq, Repr

/-- Modelled from the spec: `tiler::tile_features` (module `tiler.rs` is
not under `src/`).  Per §4.2 the tiler fails with `InvalidZoom` for a zoom
outside `[0, 30]` (the zoom is a `u8`, hence never negative) and otherwise
deterministically assigns features to tiles; the assignment itself is
abstracted as the total function `tiling`. -/
def tile_features {F : Type}
    (tiling : List F → ℕ → List (TileCoord × List MvtEncoder.TileFeature))
    (features : List F) (zoom : ℕ) :
    Except String (List (TileCoord × List MvtEncoder.TileFeature)) :=
  if 30 < zoom then .error "InvalidZoom" else .ok (tiling features zoom)

/-- The inner loop of step 5 of `generate_tiles_with_metadata`: MVT-encode
every tile of one zoom level, short-circuiting on the first error. -/
def encodeTilesAt (protoEncode : MvtEncoder.Layer → List ℕ) (layer_name : String) :
    List (TileCoord × List MvtEncoder.TileFeature) → Except String (List TileFile)
  | [] => .ok []
  | (coord, fs) :: rest =>
    match MvtEncoder.encode_tile protoEncode fs layer_name with
    | .error e => .error e
    | .ok data =>
      match encodeTilesAt protoEncode layer_name rest with
      | .error e => .error e
      | .ok files => .ok ({ coord := coord, data := data } :: files)

/-- The `for zoom in min_zoom..=max_zoom` loop of
`generate_tiles_with_metadata`, over the explicit list of zoom levels:
tile the features at each zoom (`tile_features` may fail with
`InvalidZoom`), encode every tile, and append in order. -/
def zoomLoop {F : Type}
    (tiling : List F → ℕ → List (TileCoord × List MvtEncoder.TileFeature))
    (protoEncode : MvtEncoder.Layer → List ℕ) (layer_name : String)
    (features : List F) : List ℕ → Except String (List TileFile)
  | [] => .ok []
  | z :: rest =>
    match tile_features tiling features z with
    | .error e => .error e
    | .ok tiles =>
      match encodeTilesAt protoEncode layer_name tiles with
      | .error e => .error e
      | .ok files =>
        match zoomLoop tiling protoEncode layer_name features rest with
        | .error e => .error e
        | .ok more => .ok (files ++ more)

/-- Source: `generate_tiles_with_metadata` in `lib.rs`, with the stages
living outside `src/` abstracted: `parse_geojson` and `calculate_bounds`
come from the missing `geojson_parser.rs` (fallible, per the spec),
`mkMetadata` bundles the pure metadata analysis (centre, geometry-type
counting, `analyze_properties` — all fields untouched by the claims),
`tiling` is the missing tiler's assignment, `protoEncode` the prost
serialiser.  What remains is the source's own control flow: parse the
GeoJSON, compute bounds, build the metadata, then loop over
`min_zoom..=max_zoom` (an empty range when `min_zoom > max_zoom`) tiling
and MVT-encoding, short-circuiting on the first error. -/
def generate_tiles_with_metadata {F : Type}
    (parse_geojson : List ℕ → Except String (List F))
    (calculate_bounds : List F → Except String (ℤ × ℤ × ℤ × ℤ))
    (mkMetadata : List F → (ℤ × ℤ × ℤ × ℤ) → ℕ → ℕ → PmtilesEncoder.TileMetadata)
    (tiling : List F → ℕ → List (TileCoord × List MvtEncoder.TileFeature))
    (protoEncode : MvtEncoder.Layer → List ℕ)
    (geojson_bytes : List ℕ) (min_zoom max_zoom : ℕ) (layer_name : String) :
    Except String (List TileFile × PmtilesEncoder.TileMetadata) :=
  match parse_geojson geojson_bytes with
  | .error e => .error e
  | .ok features =>
    match calculate_bounds features with
    | .error e => .error e
    | .ok bounds =>
      let metadata := mkMetadata features bounds min_zoom max_zoom
      match zoomLoop tiling protoEncode layer_name features
          (List.range' min_zoom (max_zoom + 1 - min_zoom)) with
      | .error e => .error e
      | .ok tile_files => .ok (tile_files, metadata)

/-- Source: `generate_tiles` in `lib.rs`: the same pipeline with the
metadata dropped. -/
def generate_tiles {F : Type}
    (parse_geojson : List ℕ → Except String (List F))
    (calculate_bounds : List F → Except String (ℤ × ℤ × ℤ × ℤ))
    (mkMetadata : List F → (ℤ × ℤ × ℤ × ℤ) → ℕ → ℕ → PmtilesEncoder.TileMetadata)
    (tiling : List F → ℕ → List (TileCoord × List MvtEncoder.TileFeature))
    (protoEncode : MvtEncoder.Layer → List ℕ)
    (geojson_bytes : List ℕ) (min_zoom max_zoom : ℕ) (layer_name : String) :
    Except String (List TileFile) :=
  (generate_tiles_with_metadata parse_geojson calculate_bounds mkMetadata tiling
    protoEncode geojson_bytes min_zoom max_zoom layer_name).map (·.1)

/-- Source: `generate_pmtiles` in `lib.rs`: run the tile pipeline, convert
every `TileFile` back to a `(TileCoord, bytes)` pair (the source re-parses
the `"z/x/y.pbf"` path string; that round trip is the identity on the
coordinate) and hand everything to `encode_pmtiles`, whose result is
returned unchanged. -/
def generate_pmtiles {F : Type}
    (parse_geojson : List ℕ → Except String (List F))
    (calculate_bounds : List F → Except String (ℤ × ℤ × ℤ × ℤ))
    (mkMetadata : List F → (ℤ × ℤ × ℤ × ℤ) → ℕ → ℕ → PmtilesEncoder.TileMetadata)
    (tiling : List F → ℕ → List (TileCoord × List MvtEncoder.TileFeature))
    (protoEncode : MvtEncoder.Layer → List ℕ)
    (gzip : List ℕ → List ℕ) (json_metadata : List ℕ)
    (geojson_bytes : List ℕ) (min_zoom max_zoom : ℕ) (layer_name : String) :
    Except String (List ℕ) :=
  match generate_tiles_with_metadata parse_geojson calculate_bounds mkMetadata tiling
      protoEncode geojson_bytes min_zoom max_zoom layer_name with
  | .error e => .error e
  | .ok (tile_files, metadata) =>
    PmtilesEncoder.encode_pmtiles gzip json_metadata metadata
      (tile_files.map fun tf => (tf.coord, tf.data))

end WasmLib

/-!
Claim-side definitions: these follow the words of the specification (not
the source) and are used only to state the claims about the source-derived
definitions above.
-/

/-- Claim-side little-endian reader: value of a byte string interpreted as
a little-endian unsigned integer. -/
def readLE (l : List ℕ) : ℕ :=
  l.foldr (fun b acc => acc * 256 + b % 256) 0

/-- Claim-side first-appearance index: position of the first occurrence of
`a` in `l` (length of `l` when absent). -/
def firstIdx {α : Type} [DecidableEq α] : List α → α → ℕ
  | [], _ => 0
  | b :: rest, a => if a = b then 0 else firstIdx rest a + 1

/-- One list extends another by appending at the end; interning only ever
appends, so first-appearance indices are stable under `Grows`. -/
def Grows {α : Type} (a b : List α) : Prop := ∃ t, b = a ++ t

/-- Claim-side dictionary step, following the claim's words: intern the key
into `keys` (first appearance appends it) and intern the value into
`values` keyed by `ValueKey` (type, payload) equality. -/
def specStepProp (st : List String × List MvtEncoder.JsonValue)
    (p : String × MvtEncoder.JsonValue) : List String × List MvtEncoder.JsonValue :=
  (if p.1 ∈ st.1 then st.1 else st.1 ++ [p.1],
   if MvtEncoder.ValueKey.from_json p.2 ∈ st.2.map MvtEncoder.ValueKey.from_json then st.2
   else st.2 ++ [p.2])

/-- Claim-side dictionaries after scanning a flat property list in order,
starting from empty dictionaries. -/
def specDicts (ps : List (String × MvtEncoder.JsonValue)) :
    List String × List MvtEncoder.JsonValue :=
  ps.foldl specStepProp ([], [])

/-- Refinement invariant tying the encoder's four dictionary accumulators
to the claim-side pair of dictionaries: the `keys`/`values` vectors match,
and each index map answers exactly the first-appearance index of a present
key (`HashMap` lookups behave as membership plus `firstIdx`). -/
def DictInv (st : MvtEncoder.DictState) (ks : List String)
    (vs : List MvtEncoder.JsonValue) : Prop :=
  st.keys = ks ∧
  st.values = vs.map MvtEncoder.json_to_mvt_value ∧
  (∀ k, MvtEncoder.assocLookup st.key_index k =
    if k ∈ ks then some (firstIdx ks k) else none) ∧
  (∀ vk, MvtEncoder.assocLookup st.value_index vk =
    if vk ∈ vs.map MvtEncoder.ValueKey.from_json then
      some (firstIdx (vs.map MvtEncoder.ValueKey.from_json) vk) else none)

/-- Concrete layer produced by `build_layer` on the two-feature
`{"color":"red"}` scenario; used as an evaluation witness. -/
def c8Layer : MvtEncoder.Layer :=
  match MvtEncoder.build_layer
      [⟨.point 0 0, [("color", .str "red")]⟩, ⟨.point 1 2, [("color", .str "red")]⟩]
      "pts" with
  | .ok l => l
  | .error _ => ⟨0, "", [], [], [], none⟩

/-- Concrete archive produced by `encode_pmtiles` on one tile `(0,0,0)`
with payload `[1,2,3]`, identity compressor and empty JSON metadata; used
as an evaluation witness. -/
def c5Out : List ℕ :=
  match PmtilesEncoder.encode_pmtiles id [] ⟨0, 0, 0, 0, 0, 0, 0, 0⟩
      [(⟨0, 0, 0⟩, [1, 2, 3])] with
  | .ok o => o
  | .error _ => []

/-- Concrete archive produced by the full `generate_pmtiles` pipeline on a
trivial one-feature, one-tile instantiation of the abstract stages; used
as an evaluation witness. -/
def c9Out : List ℕ :=
  match WasmLib.generate_pmtiles (F := Unit)
      (fun _ => .ok [()]) (fun _ => .ok (0, 0, 0, 0))
      (fun _ _ _ _ => ⟨0, 0, 0, 0, 0, 0, 0, 0⟩)
      (fun _ _ => [(⟨0, 0, 0⟩, [⟨.point 0 0, []⟩])])
      (fun _ => [0]) id [] [] 0 0 "t" with
  | .ok o => o
  | .error _ => []

/-!
Theorems.  Each claim `Cn` of the specification audit gets one theorem
`claim_Cn` (with `claim_Cn_witness` when it carries hypotheses, and
`claim_Cn_counterexample` when the claim as frozen fails on the source).
Helper lemmas are shared and never mention the claim theorems.
-/

/-- C1 (counterexample).  The claim fixes `hilbert(2, 0, 0) = 0`,
`hilbert(2, 1, 0) = 3`, `hilbert(2, 1, 1) = 2`, `hilbert(2, 0, 1) = 1` at
zoom 2, but the source's `xy_to_hilbert` yields `1` at `(x, y) = (1, 0)`
and `3` at `(0, 1)` for zoom 2, so the conjunction is false. -/
theorem claim_C1_counterexample :
    ¬ (PmtilesEncoder.xy_to_hilbert 0 0 2 = 0 ∧
       PmtilesEncoder.xy_to_hilbert 1 0 2 = 3 ∧
       PmtilesEncoder.xy_to_hilbert 1 1 2 = 2 ∧
       PmtilesEncoder.xy_to_hilbert 0 1 2 = 1) := by
  decide

/-- C1 (amended).  The four stated Hilbert values are the Hilbert order of
the 2×2 quadrants, i.e. they hold at zoom 1: `hilbert(1, 0, 0) = 0`,
`hilbert(1, 1, 0) = 3`, `hilbert(1, 1, 1) = 2`, `hilbert(1, 0, 1) = 1`
(at zoom 2 the source instead gives `0, 1, 2, 3` for those four inputs). -/
theorem claim_C1 :
    PmtilesEncoder.xy_to_hilbert 0 0 1 = 0 ∧
    PmtilesEncoder.xy_to_hilbert 1 0 1 = 3 ∧
    PmtilesEncoder.xy_to_hilbert 1 1 1 = 2 ∧
    PmtilesEncoder.xy_to_hilbert 0 1 1 = 1 := by
  decide

/-- Decoding inverts the varint loop whenever the fuel covers the value:
`fuel + 1` bytes suffice for values below `128 ^ (fuel + 1)`. -/
theorem write_varint_loop_decode :
    ∀ fuel v, v < 128 ^ (fuel + 1) →
      leb128_decode (PmtilesEncoder.write_varint_loop (fuel + 1) v) = some v := by
  intro fuel
  induction fuel with
  | zero =>
    intro v hv
    have hlt : v < 128 := by simpa using hv
    have hd : v / 128 = 0 := Nat.div_eq_of_lt hlt
    simp [PmtilesEncoder.write_varint_loop, hd, leb128_decode, Nat.mod_eq_of_lt hlt, hlt]
  | succ fuel ih =>
    intro v hv
    by_cases hd : v / 128 = 0
    · have hlt : v < 128 := by omega
      simp [PmtilesEncoder.write_varint_loop, hd, leb128_decode, Nat.mod_eq_of_lt hlt, hlt]
    · have hrec : v / 128 < 128 ^ (fuel + 1) := by
        apply Nat.div_lt_of_lt_mul
        calc v < 128 ^ (fuel + 1 + 1) := hv
          _ = 128 * 128 ^ (fuel + 1) := by ring
      have hge : ¬ (v % 128 + 128 < 128) := by omega
      have hstep : PmtilesEncoder.write_varint_loop (fuel + 1 + 1) v =
          (v % 128 + 128) :: PmtilesEncoder.write_varint_loop (fuel + 1) (v / 128) := by
        simp [PmtilesEncoder.write_varint_loop, hd]
      rw [hstep]
      simp [leb128_decode, hge, ih (v / 128) hrec, Nat.add_mod_right]
      omega

/-- C10.  For every `u64` value `v`, `write_varint` appends at least one
byte, and decoding the appended bytes as a standard unsigned LEB128 varint
returns `v`: LEB128 decoding is a left inverse of `write_varint`. -/
theorem claim_C10 (v : ℕ) (hv : v < 2 ^ 64) :
    1 ≤ (PmtilesEncoder.write_varint v).length ∧
    leb128_decode (PmtilesEncoder.write_varint v) = some v := by
  have hmod : v % 2 ^ 64 = v := Nat.mod_eq_of_lt hv
  have hsmall : v < 128 ^ 10 := lt_of_lt_of_le hv (by norm_num)
  have hdec := write_varint_loop_decode 9 v hsmall
  constructor
  · have hstep : PmtilesEncoder.write_varint_loop 10 v =
        if v / 128 = 0 then [v % 128]
        else (v % 128 + 128) :: PmtilesEncoder.write_varint_loop 9 (v / 128) := rfl
    unfold PmtilesEncoder.write_varint
    rw [hmod, hstep]
    by_cases hd : v / 128 = 0 <;> simp [hd]
  · unfold PmtilesEncoder.write_varint
    rw [hmod]
    exact hdec

/-- C10 (witness): the round trip at the concrete `u64` value 300. -/
theorem claim_C10_witness :
    300 < 2 ^ 64 ∧
    (1 ≤ (PmtilesEncoder.write_varint 300).length ∧
     leb128_decode (PmtilesEncoder.write_varint 300) = some 300) :=
  ⟨by norm_num, claim_C10 300 (by norm_num)⟩

/-- C6 (counterexample).  The claim requires `InvalidGeometry` for every
linestring with fewer than 2 points and every polygon with no ring of ≥ 4
points; the source instead encodes a 1-point linestring successfully (a
bare MoveTo) and encodes a polygon whose only ring has 3 points as a
success with an empty command stream (the short ring is skipped by
`continue`). -/
theorem claim_C6_counterexample :
    MvtEncoder.encode_geometry (.lineString [(0, 0)]) = .ok (.linestring, [9, 0, 0]) ∧
    MvtEncoder.encode_geometry (.polygon [[(0, 0), (1, 1), (0, 0)]]) = .ok (.polygon, []) := by
  decide

/-- C6 (amended).  `encode_geometry` fails exactly on a linestring with no
points (error "LineString is empty") or a polygon with no rings at all
(error "Polygon is empty"); every other geometry — including a 1-point
linestring and a polygon whose rings all have fewer than 4 points —
encodes successfully. -/
theorem claim_C6 (g : MvtEncoder.TileGeometry) :
    ((∃ e, MvtEncoder.encode_geometry g = .error e) ↔
      (g = .lineString [] ∨ g = .polygon [])) ∧
    MvtEncoder.encode_geometry (.lineString []) = .error "LineString is empty" ∧
    MvtEncoder.encode_geometry (.polygon []) = .error "Polygon is empty" := by
  refine ⟨?_, by decide, by decide⟩
  cases g with
  | point x y => simp [MvtEncoder.encode_geometry]
  | lineString coords =>
    cases coords with
    | nil => simp [MvtEncoder.encode_geometry]
    | cons c rest => simp [MvtEncoder.encode_geometry]
  | polygon rings =>
    by_cases h : rings = [] <;> simp [MvtEncoder.encode_geometry, h]

section HilbertBijection

open PmtilesEncoder

/-- The Hilbert loop value is bounded by `4 ^ k`: each iteration adds a
quadrant index of at most 3 scaled by `s * s = 4 ^ k`. -/
theorem hilbertLoop_lt (n : ℕ) : ∀ k x y, hilbertLoop n k x y < 4 ^ k := by
  intro k
  induction k with
  | zero => intro x y; simp [hilbertLoop]
  | succ k ih =>
    intro x y
    have hss : (2 : ℕ) ^ k * 2 ^ k = 4 ^ k := by rw [← mul_pow]; norm_num
    have hq : ∀ rx ry : Bool,
        (((if rx then 3 else 0) ^^^ (if ry then 1 else 0) : ℕ)) ≤ 3 := by decide
    have h1 := ih (rot n x y (x.testBit k) (y.testBit k)).1
      (rot n x y (x.testBit k) (y.testBit k)).2
    have h2 : 4 ^ k * ((if x.testBit k then 3 else 0) ^^^ (if y.testBit k then 1 else 0)) ≤
        4 ^ k * 3 := Nat.mul_le_mul_left _ (hq _ _)
    have hpow : (4 : ℕ) ^ (k + 1) = 4 ^ k * 4 := pow_succ 4 k
    simp only [hilbertLoop, hss]
    omega

/-- Arithmetic core of the reflection step: reducing `2^z - 1 - y` mod a
dividing power of two complements the residue. -/
theorem two_pow_sub_one_sub_mod (j z y : ℕ) (hj : j ≤ z) (hy : y < 2 ^ z) :
    (2 ^ z - 1 - y) % 2 ^ j = 2 ^ j - 1 - y % 2 ^ j := by
  have hA : (0 : ℕ) < 2 ^ j := pow_pos (by norm_num) j
  obtain ⟨c, hc⟩ : (2 : ℕ) ^ j ∣ 2 ^ z := pow_dvd_pow 2 hj
  have hR : y % 2 ^ j < 2 ^ j := Nat.mod_lt _ hA
  have hQ : y / 2 ^ j < c := by
    apply Nat.div_lt_of_lt_mul
    rw [← hc]
    exact hy
  have hdm := Nat.div_add_mod y (2 ^ j)
  have hzpos : (0 : ℕ) < 2 ^ z := pow_pos (by norm_num) z
  have key : 2 ^ z - 1 - y = 2 ^ j * (c - 1 - y / 2 ^ j) + (2 ^ j - 1 - y % 2 ^ j) := by
    have hexp : 2 ^ j * c =
        2 ^ j * (y / 2 ^ j) + 2 ^ j * (c - 1 - y / 2 ^ j) + 2 ^ j := by
      have hce : c = y / 2 ^ j + (c - 1 - y / 2 ^ j) + 1 := by omega
      nth_rewrite 1 [hce]
      ring
    omega
  calc (2 ^ z - 1 - y) % 2 ^ j
      = (2 ^ j * (c - 1 - y / 2 ^ j) + (2 ^ j - 1 - y % 2 ^ j)) % 2 ^ j := by rw [key]
    _ = (2 ^ j - 1 - y % 2 ^ j) % 2 ^ j := Nat.mul_add_mod _ _ _
    _ = 2 ^ j - 1 - y % 2 ^ j := Nat.mod_eq_of_lt (by omega)

/-- The loop from level `k` only reads the low `k` bits of the (in-range)
coordinates: congruence mod `2 ^ k` is preserved through `rot`. -/
theorem hilbertLoop_mod_congr (z : ℕ) :
    ∀ k x y x' y', k ≤ z →
      x < 2 ^ z → y < 2 ^ z → x' < 2 ^ z → y' < 2 ^ z →
      x % 2 ^ k = x' % 2 ^ k → y % 2 ^ k = y' % 2 ^ k →
      hilbertLoop (2 ^ z) k x y = hilbertLoop (2 ^ z) k x' y' := by
  intro k
  induction k with
  | zero => intro x y x' y' _ _ _ _ _ _ _; simp [hilbertLoop]
  | succ k ih =>
    intro x y x' y' hk hx hy hx' hy' hmx hmy
    have hkz : k ≤ z := by omega
    have hzpos : (0 : ℕ) < 2 ^ z := pow_pos (by norm_num) z
    have hkpos : (0 : ℕ) < 2 ^ k := pow_pos (by norm_num) k
    have hd : (2 : ℕ) ^ k ∣ 2 ^ (k + 1) := pow_dvd_pow 2 (by omega)
    have hbx : x.testBit k = x'.testBit k := by
      have h1 : (x % 2 ^ (k + 1)).testBit k = x.testBit k := by
        simp [Nat.testBit_mod_two_pow]
      have h2 : (x' % 2 ^ (k + 1)).testBit k = x'.testBit k := by
        simp [Nat.testBit_mod_two_pow]
      rw [← h1, ← h2, hmx]
    have hby : y.testBit k = y'.testBit k := by
      have h1 : (y % 2 ^ (k + 1)).testBit k = y.testBit k := by
        simp [Nat.testBit_mod_two_pow]
      have h2 : (y' % 2 ^ (k + 1)).testBit k = y'.testBit k := by
        simp [Nat.testBit_mod_two_pow]
      rw [← h1, ← h2, hmy]
    have hmxk : x % 2 ^ k = x' % 2 ^ k := by
      rw [← Nat.mod_mod_of_dvd x hd, ← Nat.mod_mod_of_dvd x' hd, hmx]
    have hmyk : y % 2 ^ k = y' % 2 ^ k := by
      rw [← Nat.mod_mod_of_dvd y hd, ← Nat.mod_mod_of_dvd y' hd, hmy]
    simp only [hilbertLoop, ← hbx, ← hby]
    cases hbxv : x.testBit k <;> cases hbyv : y.testBit k <;>
      simp only [hbxv, hbyv, rot, if_true, if_false, Bool.false_eq_true, ite_true, ite_false]
    · -- rx = false, ry = false: swap
      rw [ih y x y' x' hkz hy hx hy' hx' hmyk hmxk]
    · -- rx = false, ry = true: unchanged
      rw [ih x y x' y' hkz hx hy hx' hy' hmxk hmyk]
    · -- rx = true, ry = false: reflect then swap
      have e1 : (2 ^ z - 1 - y) % 2 ^ k = (2 ^ z - 1 - y') % 2 ^ k := by
        rw [two_pow_sub_one_sub_mod k z y hkz hy, two_pow_sub_one_sub_mod k z y' hkz hy', hmyk]
      have e2 : (2 ^ z - 1 - x) % 2 ^ k = (2 ^ z - 1 - x') % 2 ^ k := by
        rw [two_pow_sub_one_sub_mod k z x hkz hx, two_pow_sub_one_sub_mod k z x' hkz hx', hmxk]
      rw [ih (2 ^ z - 1 - y) (2 ^ z - 1 - x) (2 ^ z - 1 - y') (2 ^ z - 1 - x')
        hkz (by omega) (by omega) (by omega) (by omega) e1 e2]
    · -- rx = true, ry = true: unchanged
      rw [ih x y x' y' hkz hx hy hx' hy' hmxk hmyk]

/-- Splitting a base-`A` digit sum: quotient and remainder are unique. -/
theorem base_add_inj {A q r q' r' : ℕ} (hr : r < A) (hr' : r' < A)
    (h : A * q + r = A * q' + r') : q = q' ∧ r = r' := by
  have hA : 0 < A := lt_of_le_of_lt (Nat.zero_le _) hr
  have hq : q = q' := by
    have h1 : (A * q + r) / A = q := by
      rw [Nat.mul_add_div hA, Nat.div_eq_of_lt hr, Nat.add_zero]
    have h2 : (A * q' + r') / A = q' := by
      rw [Nat.mul_add_div hA, Nat.div_eq_of_lt hr', Nat.add_zero]
    rw [← h1, ← h2, h]
  refine ⟨hq, ?_⟩
  rw [hq] at h
  omega

/-- A number below `2 ^ (k + 1)` is determined by bit `k` together with its
residue mod `2 ^ k`. -/
theorem eq_of_testBit_high_and_mod (k a b : ℕ) (ha : a < 2 ^ (k + 1)) (hb : b < 2 ^ (k + 1))
    (hbit : a.testBit k = b.testBit k) (hmod : a % 2 ^ k = b % 2 ^ k) : a = b := by
  have hda : a / 2 ^ k < 2 := by
    apply Nat.div_lt_of_lt_mul
    rw [← pow_succ]
    exact ha
  have hdb : b / 2 ^ k < 2 := by
    apply Nat.div_lt_of_lt_mul
    rw [← pow_succ]
    exact hb
  have hdiv : a / 2 ^ k = b / 2 ^ k := by
    have hma : a / 2 ^ k % 2 = a / 2 ^ k := Nat.mod_eq_of_lt hda
    have hmb : b / 2 ^ k % 2 = b / 2 ^ k := Nat.mod_eq_of_lt hdb
    rw [Nat.testBit_to_div_mod, Nat.testBit_to_div_mod, decide_eq_decide, hma, hmb] at hbit
    omega
  have h1 := Nat.div_add_mod a (2 ^ k)
  have h2 := Nat.div_add_mod b (2 ^ k)
  rw [← h1, ← h2, hdiv, hmod]

/-- Clamping the loop arguments to their low `k` bits does not change the
result (for in-range arguments). -/
theorem hilbertLoop_norm (z k : ℕ) (hk : k ≤ z) (a b : ℕ) (ha : a < 2 ^ z) (hb : b < 2 ^ z) :
    PmtilesEncoder.hilbertLoop (2 ^ z) k a b =
      PmtilesEncoder.hilbertLoop (2 ^ z) k (a % 2 ^ k) (b % 2 ^ k) := by
  have hkpos : (0 : ℕ) < 2 ^ k := pow_pos (by norm_num) k
  have hle : (2 : ℕ) ^ k ≤ 2 ^ z := Nat.pow_le_pow_right (by norm_num) hk
  exact hilbertLoop_mod_congr z k a b (a % 2 ^ k) (b % 2 ^ k) hk ha hb
    (lt_of_lt_of_le (Nat.mod_lt _ hkpos) hle) (lt_of_lt_of_le (Nat.mod_lt _ hkpos) hle)
    (by rw [Nat.mod_mod_of_dvd a dvd_rfl]) (by rw [Nat.mod_mod_of_dvd b dvd_rfl])

/-- Injectivity of the Hilbert loop on the `2 ^ k × 2 ^ k` grid: the
quadrant index determines the top bits and, after the invertible `rot`
step, the remaining value determines the low bits. -/
theorem hilbertLoop_inj (z : ℕ) :
    ∀ k, k ≤ z → ∀ x y x' y', x < 2 ^ k → y < 2 ^ k → x' < 2 ^ k → y' < 2 ^ k →
      PmtilesEncoder.hilbertLoop (2 ^ z) k x y = PmtilesEncoder.hilbertLoop (2 ^ z) k x' y' →
      x = x' ∧ y = y' := by
  intro k
  induction k with
  | zero =>
    intro _ x y x' y' hx hy hx' hy' _
    simp only [pow_zero, Nat.lt_one_iff] at hx hy hx' hy'
    omega
  | succ k ih =>
    intro hk x y x' y' hx hy hx' hy' heq
    have hkz : k ≤ z := by omega
    have hzpos : (0 : ℕ) < 2 ^ z := pow_pos (by norm_num) z
    have hkpos : (0 : ℕ) < 2 ^ k := pow_pos (by norm_num) k
    have hle : (2 : ℕ) ^ (k + 1) ≤ 2 ^ z := Nat.pow_le_pow_right (by norm_num) hk
    have hxz : x < 2 ^ z := lt_of_lt_of_le hx hle
    have hyz : y < 2 ^ z := lt_of_lt_of_le hy hle
    have hxz' : x' < 2 ^ z := lt_of_lt_of_le hx' hle
    have hyz' : y' < 2 ^ z := lt_of_lt_of_le hy' hle
    have hss : (2 : ℕ) ^ k * 2 ^ k = 4 ^ k := by rw [← mul_pow]; norm_num
    simp only [PmtilesEncoder.hilbertLoop, hss] at heq
    obtain ⟨hq, hr⟩ := base_add_inj (hilbertLoop_lt _ _ _ _) (hilbertLoop_lt _ _ _ _) heq
    have hbits : x.testBit k = x'.testBit k ∧ y.testBit k = y'.testBit k := by
      cases hx1 : x.testBit k <;> cases hy1 : y.testBit k <;>
        cases hx2 : x'.testBit k <;> cases hy2 : y'.testBit k <;>
          rw [hx1, hy1, hx2, hy2] at hq <;>
            first
              | exact ⟨rfl, rfl⟩
              | exact absurd hq (by decide)
    obtain ⟨hbx, hby⟩ := hbits
    rw [← hbx, ← hby] at hr
    cases hbxv : x.testBit k <;> cases hbyv : y.testBit k <;>
      rw [hbxv, hbyv] at hr <;>
        simp only [PmtilesEncoder.rot, if_true, if_false, Bool.false_eq_true,
          ite_true, ite_false] at hr
    · -- rx = false, ry = false: swap
      rw [hilbertLoop_norm z k hkz y x hyz hxz,
          hilbertLoop_norm z k hkz y' x' hyz' hxz'] at hr
      obtain ⟨h1, h2⟩ := ih hkz _ _ _ _ (Nat.mod_lt _ hkpos) (Nat.mod_lt _ hkpos)
        (Nat.mod_lt _ hkpos) (Nat.mod_lt _ hkpos) hr
      exact ⟨eq_of_testBit_high_and_mod k x x' hx hx' hbx h2,
             eq_of_testBit_high_and_mod k y y' hy hy' hby h1⟩
    · -- rx = false, ry = true: unchanged
      rw [hilbertLoop_norm z k hkz x y hxz hyz,
          hilbertLoop_norm z k hkz x' y' hxz' hyz'] at hr
      obtain ⟨h1, h2⟩ := ih hkz _ _ _ _ (Nat.mod_lt _ hkpos) (Nat.mod_lt _ hkpos)
        (Nat.mod_lt _ hkpos) (Nat.mod_lt _ hkpos) hr
      exact ⟨eq_of_testBit_high_and_mod k x x' hx hx' hbx h1,
             eq_of_testBit_high_and_mod k y y' hy hy' hby h2⟩
    · -- rx = true, ry = false: reflect then swap
      rw [hilbertLoop_norm z k hkz (2 ^ z - 1 - y) (2 ^ z - 1 - x) (by omega) (by omega),
          hilbertLoop_norm z k hkz (2 ^ z - 1 - y') (2 ^ z - 1 - x') (by omega) (by omega),
          two_pow_sub_one_sub_mod k z y hkz hyz, two_pow_sub_one_sub_mod k z x hkz hxz,
          two_pow_sub_one_sub_mod k z y' hkz hyz',
          two_pow_sub_one_sub_mod k z x' hkz hxz'] at hr
      obtain ⟨h1, h2⟩ := ih hkz _ _ _ _ (by omega) (by omega) (by omega) (by omega) hr
      have hmy : y % 2 ^ k < 2 ^ k := Nat.mod_lt _ hkpos
      have hmy' : y' % 2 ^ k < 2 ^ k := Nat.mod_lt _ hkpos
      have hmx : x % 2 ^ k < 2 ^ k := Nat.mod_lt _ hkpos
      have hmx' : x' % 2 ^ k < 2 ^ k := Nat.mod_lt _ hkpos
      exact ⟨eq_of_testBit_high_and_mod k x x' hx hx' hbx (by omega),
             eq_of_testBit_high_and_mod k y y' hy hy' hby (by omega)⟩
    · -- rx = true, ry = true: unchanged
      rw [hilbertLoop_norm z k hkz x y hxz hyz,
          hilbertLoop_norm z k hkz x' y' hxz' hyz'] at hr
      obtain ⟨h1, h2⟩ := ih hkz _ _ _ _ (Nat.mod_lt _ hkpos) (Nat.mod_lt _ hkpos)
        (Nat.mod_lt _ hkpos) (Nat.mod_lt _ hkpos) hr
      exact ⟨eq_of_testBit_high_and_mod k x x' hx hx' hbx h1,
             eq_of_testBit_high_and_mod k y y' hy hy' hby h2⟩

/-- `xy_to_hilbert` is always below `4 ^ z` (the clamp keeps the inputs in
range and the loop is bounded). -/
theorem xy_to_hilbert_lt (x y z : ℕ) : PmtilesEncoder.xy_to_hilbert x y z < 4 ^ z := by
  by_cases hz : z = 0
  · simp [PmtilesEncoder.xy_to_hilbert, hz]
  · simp only [PmtilesEncoder.xy_to_hilbert, if_neg hz]
    exact hilbertLoop_lt _ _ _ _

/-- On in-range coordinates the clamp is the identity and `xy_to_hilbert`
is the bare loop. -/
theorem xy_to_hilbert_eq_loop (z x y : ℕ) (hz : z ≠ 0) (hx : x < 2 ^ z) (hy : y < 2 ^ z) :
    PmtilesEncoder.xy_to_hilbert x y z = PmtilesEncoder.hilbertLoop (2 ^ z) z x y := by
  have hzpos : (0 : ℕ) < 2 ^ z := pow_pos (by norm_num) z
  have h0 : 0 < z := Nat.pos_of_ne_zero hz
  simp only [PmtilesEncoder.xy_to_hilbert, if_pos h0, if_neg hz]
  rw [min_eq_left (by omega), min_eq_left (by omega)]

/-- Injectivity of `xy_to_hilbert` on the `2 ^ z × 2 ^ z` grid. -/
theorem xy_to_hilbert_injOn (z : ℕ) :
    ∀ x y x' y', x < 2 ^ z → y < 2 ^ z → x' < 2 ^ z → y' < 2 ^ z →
      PmtilesEncoder.xy_to_hilbert x y z = PmtilesEncoder.xy_to_hilbert x' y' z →
      x = x' ∧ y = y' := by
  intro x y x' y' hx hy hx' hy' h
  by_cases hz : z = 0
  · subst hz
    simp only [pow_zero, Nat.lt_one_iff] at hx hy hx' hy'
    omega
  · rw [xy_to_hilbert_eq_loop z x y hz hx hy, xy_to_hilbert_eq_loop z x' y' hz hx' hy'] at h
    exact hilbertLoop_inj z z le_rfl x y x' y' hx hy hx' hy' h

/-- Surjectivity of `xy_to_hilbert` onto `[0, 4 ^ z)`: the injective image
of the full `2 ^ z × 2 ^ z` grid has exactly `4 ^ z` elements inside
`[0, 4 ^ z)`, hence fills it. -/
theorem xy_to_hilbert_surjOn (z : ℕ) :
    ∀ d, d < 4 ^ z → ∃ x y, x < 2 ^ z ∧ y < 2 ^ z ∧ PmtilesEncoder.xy_to_hilbert x y z = d := by
  intro d hd
  classical
  set f : ℕ × ℕ → ℕ := fun p => PmtilesEncoder.xy_to_hilbert p.1 p.2 z with hf
  set s : Finset (ℕ × ℕ) := Finset.range (2 ^ z) ×ˢ Finset.range (2 ^ z) with hs
  have hinj : Set.InjOn f ↑s := by
    intro p hp q hq hfq
    simp only [hs, Finset.coe_product, Set.mem_prod, Finset.mem_coe, Finset.mem_range] at hp hq
    obtain ⟨h1, h2⟩ := xy_to_hilbert_injOn z p.1 p.2 q.1 q.2 hp.1 hp.2 hq.1 hq.2 hfq
    exact Prod.ext h1 h2
  have hsub : s.image f ⊆ Finset.range (4 ^ z) := by
    intro m hm
    obtain ⟨a, _, hfa⟩ := Finset.mem_image.mp hm
    rw [Finset.mem_range, ← hfa]
    exact xy_to_hilbert_lt a.1 a.2 z
  have hcard : (Finset.range (4 ^ z)).card ≤ (s.image f).card := by
    rw [Finset.card_image_of_injOn hinj, hs, Finset.card_product, Finset.card_range,
      Finset.card_range]
    have hssq : (2 : ℕ) ^ z * 2 ^ z = 4 ^ z := by rw [← mul_pow]; norm_num
    omega
  have heq : s.image f = Finset.range (4 ^ z) := Finset.eq_of_subset_of_card_le hsub hcard
  have hdmem : d ∈ s.image f := by
    rw [heq]
    exact Finset.mem_range.mpr hd
  obtain ⟨p, hp, hfp⟩ := Finset.mem_image.mp hdmem
  rw [hs, Finset.mem_product, Finset.mem_range, Finset.mem_range] at hp
  exact ⟨p.1, p.2, hp.1, hp.2, hfp⟩

/-- C2.  For every zoom `z ≤ 30`, `xy_to_hilbert` restricted to the grid
`{(x, y) : x < 2^z ∧ y < 2^z}` is a bijection onto `[0, 4^z)`: it is
injective on that domain and attains every value below `4 ^ z`. -/
theorem claim_C2 (z : ℕ) (hz : z ≤ 30) :
    (∀ x y x' y', x < 2 ^ z → y < 2 ^ z → x' < 2 ^ z → y' < 2 ^ z →
        PmtilesEncoder.xy_to_hilbert x y z = PmtilesEncoder.xy_to_hilbert x' y' z →
        x = x' ∧ y = y') ∧
    (∀ d, d < 4 ^ z →
        ∃ x y, x < 2 ^ z ∧ y < 2 ^ z ∧ PmtilesEncoder.xy_to_hilbert x y z = d) :=
  ⟨xy_to_hilbert_injOn z, xy_to_hilbert_surjOn z⟩

/-- C2 (witness): the bijection property instantiated at zoom 2. -/
theorem claim_C2_witness :
    2 ≤ 30 ∧
    ((∀ x y x' y', x < 2 ^ 2 → y < 2 ^ 2 → x' < 2 ^ 2 → y' < 2 ^ 2 →
        PmtilesEncoder.xy_to_hilbert x y 2 = PmtilesEncoder.xy_to_hilbert x' y' 2 →
        x = x' ∧ y = y') ∧
     (∀ d, d < 4 ^ 2 →
        ∃ x y, x < 2 ^ 2 ∧ y < 2 ^ 2 ∧ PmtilesEncoder.xy_to_hilbert x y 2 = d)) :=
  ⟨by norm_num, claim_C2 2 (by norm_num)⟩

end HilbertBijection

section EntryInvariants

open PmtilesEncoder

/-- Compression of the sorted entry list keeps its length. -/
theorem compressEntries_length (gzip : List ℕ → List ℕ) :
    ∀ l off, (compressEntries gzip l off).length = l.length := by
  intro l
  induction l with
  | nil => intro off; rfl
  | cons e rest ih => intro off; simp [compressEntries, ih]

/-- Compression of the sorted entry list keeps every tile id in place. -/
theorem compressEntries_map_tile_id (gzip : List ℕ → List ℕ) :
    ∀ l off, (compressEntries gzip l off).map (·.tile_id) = l.map (·.tile_id) := by
  intro l
  induction l with
  | nil => intro off; rfl
  | cons e rest ih => intro off; simp [compressEntries, ih]

/-- The first compressed entry carries the incoming running offset. -/
theorem compressEntries_head_offset (gzip : List ℕ → List ℕ) :
    ∀ l off, l ≠ [] → ((compressEntries gzip l off).head?).map (·.offset) = some off := by
  intro l
  cases l with
  | nil => intro off h; exact absurd rfl h
  | cons e rest => intro off _; simp [compressEntries]

/-- Adjacent compressed entries satisfy the running-offset recurrence
`offset[i+1] = offset[i] + length[i]`. -/
theorem compressEntries_chain (gzip : List ℕ → List ℕ) :
    ∀ l off, List.Chain' (fun a b => b.offset = a.offset + a.length)
      (compressEntries gzip l off) := by
  intro l
  induction l with
  | nil => intro off; simp [compressEntries]
  | cons e rest ih =>
    intro off
    rw [compressEntries, List.chain'_cons']
    refine ⟨?_, ih _⟩
    intro b hb
    cases rest with
    | nil => simp [compressEntries] at hb
    | cons e2 r2 =>
      simp only [compressEntries, List.head?_cons, Option.mem_def, Option.some.injEq] at hb
      rw [← hb]

/-- A list whose head offset is 0 and whose adjacent entries satisfy the
running-offset recurrence has `offset[i] = Σ_{j<i} length[j]`. -/
theorem chain_offsets_sum (es : List PmtilesEncoder.TileEntry)
    (hch : List.Chain' (fun a b => b.offset = a.offset + a.length) es)
    (h0 : (es.head?).map (·.offset) = some 0) :
    ∀ i, (h : i < es.length) →
      (es.get ⟨i, h⟩).offset = ((es.take i).map (·.length)).sum := by
  intro i
  induction i with
  | zero =>
    intro h
    cases es with
    | nil => simp at h
    | cons a l =>
      simp only [List.head?_cons, Option.map_some] at h0
      simp [List.take_zero]
      exact (Option.some.injEq _ _).mp h0
  | succ i ih =>
    intro h
    have hi : i < es.length := by omega
    have hi1 : i < es.length - 1 := by omega
    have hadj := (List.chain'_iff_get.mp hch) i hi1
    have hsum := ih hi
    have htake : es.take (i + 1) = es.take i ++ [es.get ⟨i, hi⟩] := by
      rw [List.take_succ]
      congr
      rw [List.getElem?_eq_getElem hi]
      rfl
    rw [htake, List.map_append, List.sum_append]
    simp only [List.map_cons, List.map_nil, List.sum_cons, List.sum_nil]
    omega

/-- `sort_by_key` sorts the entries by tile id (non-strictly). -/
theorem sortEntries_sorted (entries : List PmtilesEncoder.TileEntry) :
    List.Pairwise (fun a b => a.tile_id ≤ b.tile_id) (sortEntries entries) := by
  haveI : IsTotal PmtilesEncoder.TileEntry (fun a b => a.tile_id ≤ b.tile_id) :=
    ⟨fun a b => le_total a.tile_id b.tile_id⟩
  haveI : IsTrans PmtilesEncoder.TileEntry (fun a b => a.tile_id ≤ b.tile_id) :=
    ⟨fun _ _ _ hab hbc => le_trans hab hbc⟩
  exact List.sorted_insertionSort _ entries

/-- `sort_by_key` permutes the entries. -/
theorem sortEntries_perm (entries : List PmtilesEncoder.TileEntry) :
    (sortEntries entries).Perm entries :=
  List.perm_insertionSort _ _

/-- C3 (counterexample).  The claim asserts strictly increasing tile ids
for every non-empty input tile list, but `encode_pmtiles` does not
deduplicate: two input tiles with the same coordinate `(0, 0, 0)` produce
two entries with the equal tile id 0, so the sorted entry list is not
strictly increasing (shown with the identity as the compressor; the tile
ids are independent of the compressor). -/
theorem claim_C3_counterexample :
    ¬ List.Chain' (fun a b => a.tile_id < b.tile_id)
      (PmtilesEncoder.tile_entries_of id
        [(⟨0, 0, 0⟩, [1]), (⟨0, 0, 0⟩, [2])]) := by
  intro hch
  have hes : PmtilesEncoder.tile_entries_of id [(⟨0, 0, 0⟩, [1]), (⟨0, 0, 0⟩, [2])] =
      [⟨0, 0, 1, [1]⟩, ⟨0, 1, 1, [2]⟩] := by decide
  rw [hes] at hch
  simp [List.chain'_cons] at hch

/-- C3 (amended).  For every non-empty input tile list, the sorted entry
list built by `encode_pmtiles` has non-decreasing tile ids — strictly
increasing whenever the input coordinates map to pairwise distinct tile
ids (as they do for the distinct valid coordinates the pipeline
produces) — and its offsets always satisfy `offset[0] = 0`,
`offset[i+1] = offset[i] + length[i]` and `offset[i] = Σ_{j<i} length[j]`,
where `length` is the gzip-compressed tile length. -/
theorem claim_C3 (gzip : List ℕ → List ℕ) (tiles : List (TileCoord × List ℕ))
    (hne : tiles ≠ []) :
    List.Chain' (fun a b => a.tile_id ≤ b.tile_id)
      (PmtilesEncoder.tile_entries_of gzip tiles) ∧
    ((tiles.map fun t => PmtilesEncoder.coord_to_tile_id t.1.z t.1.x t.1.y).Nodup →
      List.Chain' (fun a b => a.tile_id < b.tile_id)
        (PmtilesEncoder.tile_entries_of gzip tiles)) ∧
    ((PmtilesEncoder.tile_entries_of gzip tiles).head?).map (·.offset) = some 0 ∧
    (∀ i, (h : i + 1 < (PmtilesEncoder.tile_entries_of gzip tiles).length) →
      ((PmtilesEncoder.tile_entries_of gzip tiles).get ⟨i + 1, h⟩).offset =
        ((PmtilesEncoder.tile_entries_of gzip tiles).get ⟨i, by omega⟩).offset +
        ((PmtilesEncoder.tile_entries_of gzip tiles).get ⟨i, by omega⟩).length) ∧
    (∀ i, (h : i < (PmtilesEncoder.tile_entries_of gzip tiles).length) →
      ((PmtilesEncoder.tile_entries_of gzip tiles).get ⟨i, h⟩).offset =
        (((PmtilesEncoder.tile_entries_of gzip tiles).take i).map (·.length)).sum) := by
  have hinitne : PmtilesEncoder.initialEntries tiles ≠ [] := by
    simp [PmtilesEncoder.initialEntries, hne]
  have hsortne : PmtilesEncoder.sortEntries (PmtilesEncoder.initialEntries tiles) ≠ [] := by
    intro hnil
    have hlen := (sortEntries_perm (PmtilesEncoder.initialEntries tiles)).length_eq
    rw [hnil] at hlen
    exact hinitne (List.eq_nil_of_length_eq_zero hlen.symm)
  have hches : List.Chain' (fun a b => b.offset = a.offset + a.length)
      (PmtilesEncoder.tile_entries_of gzip tiles) :=
    compressEntries_chain gzip _ 0
  have hhead : ((PmtilesEncoder.tile_entries_of gzip tiles).head?).map (·.offset) = some 0 :=
    compressEntries_head_offset gzip _ 0 hsortne
  have hids : (PmtilesEncoder.tile_entries_of gzip tiles).map (·.tile_id) =
      (PmtilesEncoder.sortEntries (PmtilesEncoder.initialEntries tiles)).map (·.tile_id) :=
    compressEntries_map_tile_id gzip _ 0
  have hpair : List.Pairwise (fun a b => a.tile_id ≤ b.tile_id)
      (PmtilesEncoder.tile_entries_of gzip tiles) := by
    have hs := sortEntries_sorted (PmtilesEncoder.initialEntries tiles)
    have h1 : List.Pairwise (· ≤ ·)
        ((PmtilesEncoder.sortEntries (PmtilesEncoder.initialEntries tiles)).map (·.tile_id)) :=
      List.pairwise_map.mpr hs
    rw [← hids] at h1
    exact List.pairwise_map.mp h1
  refine ⟨hpair.chain', ?_, hhead, ?_, ?_⟩
  · intro hnodup
    have hinitids : (PmtilesEncoder.initialEntries tiles).map (·.tile_id) =
        tiles.map (fun t => PmtilesEncoder.coord_to_tile_id t.1.z t.1.x t.1.y) := by
      simp [PmtilesEncoder.initialEntries]
    have hnodup2 :
        ((PmtilesEncoder.sortEntries (PmtilesEncoder.initialEntries tiles)).map
          (·.tile_id)).Nodup := by
      rw [List.Perm.nodup_iff (List.Perm.map _ (sortEntries_perm _)), hinitids]
      exact hnodup
    have hnodup3 : ((PmtilesEncoder.tile_entries_of gzip tiles).map (·.tile_id)).Nodup := by
      rw [hids]
      exact hnodup2
    have hne2 : List.Pairwise (fun a b => a.tile_id ≠ b.tile_id)
        (PmtilesEncoder.tile_entries_of gzip tiles) := List.pairwise_map.mp hnodup3
    exact ((hpair.and hne2).imp fun h => lt_of_le_of_ne h.1 h.2).chain'
  · intro i h
    have hi1 : i < (PmtilesEncoder.tile_entries_of gzip tiles).length - 1 := by omega
    exact (List.chain'_iff_get.mp hches) i hi1
  · intro i h
    exact chain_offsets_sum _ hches hhead i h

/-- C3 (witness): the invariants on the concrete two-tile input
`[(1/0/0, [5,6,7,8]), (0/0/0, [1,2,3,4])]` with the identity as the
compressor. -/
theorem claim_C3_witness :
    ([((⟨1, 0, 0⟩ : TileCoord), [5, 6, 7, 8]), (⟨0, 0, 0⟩, [1, 2, 3, 4])] :
        List (TileCoord × List ℕ)) ≠ [] ∧
    (List.Chain' (fun a b => a.tile_id ≤ b.tile_id)
      (PmtilesEncoder.tile_entries_of id
        [(⟨1, 0, 0⟩, [5, 6, 7, 8]), (⟨0, 0, 0⟩, [1, 2, 3, 4])]) ∧
    (([((⟨1, 0, 0⟩ : TileCoord), [5, 6, 7, 8]), (⟨0, 0, 0⟩, [1, 2, 3, 4])].map
        fun t => PmtilesEncoder.coord_to_tile_id t.1.z t.1.x t.1.y).Nodup →
      List.Chain' (fun a b => a.tile_id < b.tile_id)
        (PmtilesEncoder.tile_entries_of id
          [(⟨1, 0, 0⟩, [5, 6, 7, 8]), (⟨0, 0, 0⟩, [1, 2, 3, 4])])) ∧
    ((PmtilesEncoder.tile_entries_of id
        [(⟨1, 0, 0⟩, [5, 6, 7, 8]), (⟨0, 0, 0⟩, [1, 2, 3, 4])]).head?).map (·.offset) =
      some 0 ∧
    (∀ i, (h : i + 1 < (PmtilesEncoder.tile_entries_of id
        [(⟨1, 0, 0⟩, [5, 6, 7, 8]), (⟨0, 0, 0⟩, [1, 2, 3, 4])]).length) →
      ((PmtilesEncoder.tile_entries_of id
        [(⟨1, 0, 0⟩, [5, 6, 7, 8]), (⟨0, 0, 0⟩, [1, 2, 3, 4])]).get ⟨i + 1, h⟩).offset =
        ((PmtilesEncoder.tile_entries_of id
          [(⟨1, 0, 0⟩, [5, 6, 7, 8]), (⟨0, 0, 0⟩, [1, 2, 3, 4])]).get
            ⟨i, by omega⟩).offset +
        ((PmtilesEncoder.tile_entries_of id
          [(⟨1, 0, 0⟩, [5, 6, 7, 8]), (⟨0, 0, 0⟩, [1, 2, 3, 4])]).get
            ⟨i, by omega⟩).length) ∧
    (∀ i, (h : i < (PmtilesEncoder.tile_entries_of id
        [(⟨1, 0, 0⟩, [5, 6, 7, 8]), (⟨0, 0, 0⟩, [1, 2, 3, 4])]).length) →
      ((PmtilesEncoder.tile_entries_of id
        [(⟨1, 0, 0⟩, [5, 6, 7, 8]), (⟨0, 0, 0⟩, [1, 2, 3, 4])]).get ⟨i, h⟩).offset =
        (((PmtilesEncoder.tile_entries_of id
          [(⟨1, 0, 0⟩, [5, 6, 7, 8]), (⟨0, 0, 0⟩, [1, 2, 3, 4])]).take i).map
            (·.length)).sum)) :=
  ⟨by decide, claim_C3 id [(⟨1, 0, 0⟩, [5, 6, 7, 8]), (⟨0, 0, 0⟩, [1, 2, 3, 4])] (by decide)⟩

end EntryInvariants

section DirectoryFormat

open PmtilesEncoder

/-- On ordered in-range operands the `u64` subtraction is exact. -/
theorem wsub64_eq (a b : ℕ) (hba : b ≤ a) (ha : a < 2 ^ 64) :
    wsub64 a b = a - b := by
  unfold wsub64
  rw [Nat.mod_eq_of_lt ha, Nat.mod_eq_of_lt (lt_of_le_of_lt hba ha)]
  have h1 : 2 ^ 64 + a - b = (a - b) + 2 ^ 64 := by omega
  rw [h1, Nat.add_mod_right, Nat.mod_eq_of_lt (by omega)]

/-- The id-delta loop, written against the claim's indexed description:
one varint of `tile_id[i] - tile_id[i-1]` per entry, the first relative to
`last`. -/
theorem tileIdSection_eq_zipWith :
    ∀ (l : List PmtilesEncoder.TileEntry) (last : ℕ), last < 2 ^ 64 →
      (∀ e ∈ l, e.tile_id < 2 ^ 64) →
      List.Chain' (fun a b => a.tile_id ≤ b.tile_id) l →
      (∀ e ∈ l.head?, last ≤ e.tile_id) →
      tileIdSection last l =
        (List.zipWith (fun prev e => write_varint (e.tile_id - prev))
          (last :: l.map (·.tile_id)) l).flatten := by
  intro l
  induction l with
  | nil => intro last _ _ _ _; rfl
  | cons e rest ih =>
    intro last hlast hids hch hhead
    have hee : e.tile_id < 2 ^ 64 := hids e (by simp)
    have hle : last ≤ e.tile_id := hhead e (by simp)
    obtain ⟨hrel, hchrest⟩ := List.chain'_cons'.mp hch
    rw [tileIdSection, List.map_cons, List.zipWith_cons_cons, List.flatten_cons,
      wsub64_eq e.tile_id last hle hee,
      ih e.tile_id hee (fun x hx => hids x (by simp [hx])) hchrest hrel]

/-- The length-delta loop against its indexed description. -/
theorem lengthSection_eq_zipWith :
    ∀ (l : List PmtilesEncoder.TileEntry) (last : ℕ),
      lengthSection last l =
        (List.zipWith (fun (prev : ℕ) e =>
            write_varint (zigzag_encode ((e.length : ℤ) - (prev : ℤ))))
          (last :: l.map (·.length)) l).flatten := by
  intro l
  induction l with
  | nil => intro last; rfl
  | cons e rest ih =>
    intro last
    rw [lengthSection, List.map_cons, List.zipWith_cons_cons, List.flatten_cons, ih e.length]

/-- The offset-delta loop against its indexed description. -/
theorem offsetSection_eq_zipWith :
    ∀ (l : List PmtilesEncoder.TileEntry) (last : ℕ),
      offsetSection last l =
        (List.zipWith (fun (prev : ℕ) e =>
            write_varint (zigzag_encode ((e.offset : ℤ) - (prev : ℤ))))
          (last :: l.map (·.offset)) l).flatten := by
  intro l
  induction l with
  | nil => intro last; rfl
  | cons e rest ih =>
    intro last
    rw [offsetSection, List.map_cons, List.zipWith_cons_cons, List.flatten_cons, ih e.offset]

/-- C4.  For every non-empty sorted entry list (with `u64` tile ids), the
uncompressed directory consists of a varint entry count, then section 1
with one unsigned varint per entry holding `tile_id[i] - tile_id[i-1]`
(the first relative to 0), then section 2 with one varint always equal to
1 per entry, then section 3 with the zig-zag-encoded signed deltas
`length[i] - length[i-1]`, then section 4 with the zig-zag-encoded signed
deltas of offsets (the first delta being `offset[0] - 0`); the whole
directory is gzip-compressed as one block. -/
theorem claim_C4 (gzip : List ℕ → List ℕ) (entries : List PmtilesEncoder.TileEntry)
    (hne : entries ≠ [])
    (hsorted : List.Chain' (fun a b => a.tile_id ≤ b.tile_id) entries)
    (hid : ∀ e ∈ entries, e.tile_id < 2 ^ 64) :
    PmtilesEncoder.encode_directory gzip entries =
      gzip (PmtilesEncoder.write_varint entries.length
        ++ (List.zipWith (fun prev e => PmtilesEncoder.write_varint (e.tile_id - prev))
             (0 :: entries.map (·.tile_id)) entries).flatten
        ++ (entries.map fun _ => PmtilesEncoder.write_varint 1).flatten
        ++ (List.zipWith (fun (prev : ℕ) e =>
               PmtilesEncoder.write_varint
                 (PmtilesEncoder.zigzag_encode ((e.length : ℤ) - (prev : ℤ))))
             (0 :: entries.map (·.length)) entries).flatten
        ++ (List.zipWith (fun (prev : ℕ) e =>
               PmtilesEncoder.write_varint
                 (PmtilesEncoder.zigzag_encode ((e.offset : ℤ) - (prev : ℤ))))
             (0 :: entries.map (·.offset)) entries).flatten) := by
  unfold PmtilesEncoder.encode_directory PmtilesEncoder.directoryBytes
    PmtilesEncoder.runLengthSection
  rw [tileIdSection_eq_zipWith entries 0 (by norm_num) hid hsorted (by simp),
    lengthSection_eq_zipWith entries 0, offsetSection_eq_zipWith entries 0]

/-- C4 (witness): the directory layout on a concrete sorted two-entry
list, with the identity as the compressor. -/
theorem claim_C4_witness :
    ([(⟨0, 0, 1, [7]⟩ : PmtilesEncoder.TileEntry), ⟨5, 1, 2, [8, 9]⟩] ≠
        ([] : List PmtilesEncoder.TileEntry)) ∧
    List.Chain' (fun a b => a.tile_id ≤ b.tile_id)
      ([⟨0, 0, 1, [7]⟩, ⟨5, 1, 2, [8, 9]⟩] : List PmtilesEncoder.TileEntry) ∧
    (∀ e ∈ ([⟨0, 0, 1, [7]⟩, ⟨5, 1, 2, [8, 9]⟩] : List PmtilesEncoder.TileEntry),
      e.tile_id < 2 ^ 64) ∧
    PmtilesEncoder.encode_directory id
        ([⟨0, 0, 1, [7]⟩, ⟨5, 1, 2, [8, 9]⟩] : List PmtilesEncoder.TileEntry) =
      id (PmtilesEncoder.write_varint 2
        ++ (List.zipWith (fun prev e => PmtilesEncoder.write_varint (e.tile_id - prev))
             (0 :: ([⟨0, 0, 1, [7]⟩, ⟨5, 1, 2, [8, 9]⟩] :
                List PmtilesEncoder.TileEntry).map (·.tile_id))
             ([⟨0, 0, 1, [7]⟩, ⟨5, 1, 2, [8, 9]⟩] :
                List PmtilesEncoder.TileEntry)).flatten
        ++ (([⟨0, 0, 1, [7]⟩, ⟨5, 1, 2, [8, 9]⟩] : List PmtilesEncoder.TileEntry).map
              fun _ => PmtilesEncoder.write_varint 1).flatten
        ++ (List.zipWith (fun (prev : ℕ) e =>
               PmtilesEncoder.write_varint
                 (PmtilesEncoder.zigzag_encode ((e.length : ℤ) - (prev : ℤ))))
             (0 :: ([⟨0, 0, 1, [7]⟩, ⟨5, 1, 2, [8, 9]⟩] :
                List PmtilesEncoder.TileEntry).map (·.length))
             ([⟨0, 0, 1, [7]⟩, ⟨5, 1, 2, [8, 9]⟩] :
                List PmtilesEncoder.TileEntry)).flatten
        ++ (List.zipWith (fun (prev : ℕ) e =>
               PmtilesEncoder.write_varint
                 (PmtilesEncoder.zigzag_encode ((e.offset : ℤ) - (prev : ℤ))))
             (0 :: ([⟨0, 0, 1, [7]⟩, ⟨5, 1, 2, [8, 9]⟩] :
                List PmtilesEncoder.TileEntry).map (·.offset))
             ([⟨0, 0, 1, [7]⟩, ⟨5, 1, 2, [8, 9]⟩] :
                List PmtilesEncoder.TileEntry)).flatten) := by
  refine ⟨by decide, ?_, by decide, ?_⟩
  · rw [List.chain'_cons]
    exact ⟨by norm_num, List.chain'_singleton _⟩
  · exact claim_C4 id [⟨0, 0, 1, [7]⟩, ⟨5, 1, 2, [8, 9]⟩] (by decide)
      (by rw [List.chain'_cons]; exact ⟨by norm_num, List.chain'_singleton _⟩) (by decide)

end DirectoryFormat

section HeaderLayout

open PmtilesEncoder

/-- `leBytes` always produces exactly `k` bytes. -/
theorem leBytes_length : ∀ k v, (PmtilesEncoder.leBytes k v).length = k := by
  intro k
  induction k with
  | zero => intro v; rfl
  | succ k ih => intro v; simp [PmtilesEncoder.leBytes, ih]

/-- `le64` produces exactly 8 bytes. -/
theorem le64_length (v : ℕ) : (le64 v).length = 8 := by
  simp [PmtilesEncoder.le64, leBytes_length]

/-- `le32i` produces exactly 4 bytes. -/
theorem le32i_length (v : ℤ) : (le32i v).length = 4 := by
  simp [PmtilesEncoder.le32i, leBytes_length]

/-- Little-endian reading inverts little-endian writing, mod `256 ^ k`. -/
theorem readLE_leBytes : ∀ k v, readLE (PmtilesEncoder.leBytes k v) = v % 256 ^ k := by
  intro k
  induction k with
  | zero => intro v; simp [PmtilesEncoder.leBytes, readLE, Nat.mod_one]
  | succ k ih =>
    intro v
    have hsplit : v % 256 ^ (k + 1) = v % 256 + 256 * (v / 256 % 256 ^ k) := by
      have h1 : (256 : ℕ) ^ (k + 1) = 256 * 256 ^ k := by ring
      rw [h1, Nat.mod_mul]
    simp only [PmtilesEncoder.leBytes, readLE, List.foldr_cons]
    rw [show (List.foldr (fun b acc => acc * 256 + b % 256) 0 (PmtilesEncoder.leBytes k (v / 256)))
        = readLE (PmtilesEncoder.leBytes k (v / 256)) from rfl, ih]
    omega

/-- Reading back a `le64` field recovers the `u64` value. -/
theorem readLE_le64 (v : ℕ) : readLE (le64 v) = v % 2 ^ 64 := by
  rw [PmtilesEncoder.le64, readLE_leBytes]
  have h1 : (256 : ℕ) ^ 8 = 2 ^ 64 := by norm_num
  rw [h1, Nat.mod_mod_of_dvd _ dvd_rfl]

/-- The header is exactly 127 bytes for every input. -/
theorem write_header_length (m : PmtilesEncoder.TileMetadata)
    (cnt a b c d e f : ℕ) :
    (write_header m cnt a b c d e f).length = 127 := by
  simp [PmtilesEncoder.write_header, le64_length, le32i_length, PmtilesEncoder.i8Byte,
    List.length_append]

/-- Extracting a slice of a byte buffer at the offset where a known
segment sits returns that segment. -/
theorem slice_at (out pre mid post : List ℕ) (o k : ℕ)
    (h : out = pre ++ (mid ++ post)) (hl : pre.length = o) (hk : mid.length = k) :
    (out.drop o).take k = mid := by
  subst h
  rw [List.drop_left' hl, List.take_left' hk]

/-- The compressed sorted entry list is as long as the input tile list. -/
theorem tile_entries_of_length (gzip : List ℕ → List ℕ) (tiles : List (TileCoord × List ℕ)) :
    (PmtilesEncoder.tile_entries_of gzip tiles).length = tiles.length := by
  rw [PmtilesEncoder.tile_entries_of, compressEntries_length,
    (sortEntries_perm _).length_eq, PmtilesEncoder.initialEntries, List.length_map]

/-- Peeling the 8-byte magic-and-version block off the front of the
serialised header. -/
theorem drop_magic_block (X : List ℕ) (n : ℕ) :
    (([80, 77, 84, 105, 108, 101, 115, 3] : List ℕ) ++ X).drop (8 + n) = X.drop n := by
  rw [show 8 + n = ([80, 77, 84, 105, 108, 101, 115, 3] : List ℕ).length + n from rfl,
    List.drop_append]

/-- Peeling one 8-byte `u64` field off the front of the remaining
stream. -/
theorem drop_le64_block (v : ℕ) (X : List ℕ) (n : ℕ) :
    (PmtilesEncoder.le64 v ++ X).drop (8 + n) = X.drop n := by
  rw [show 8 + n = (PmtilesEncoder.le64 v).length + n by rw [le64_length], List.drop_append]

/-- Reading the 8-byte `u64` field at the front of the remaining
stream. -/
theorem take_le64_block (v : ℕ) (X : List ℕ) :
    (PmtilesEncoder.le64 v ++ X).take 8 = PmtilesEncoder.le64 v := by
  rw [show (8 : ℕ) = (PmtilesEncoder.le64 v).length by rw [le64_length], List.take_left]

/-- Byte-level layout of the written header: the version byte at offset
7, the four flag bytes at 96–99, and the six `u64` fields the claims
mention, each read off the serialised stream at its header offset. -/
theorem write_header_slices (m : PmtilesEncoder.TileMetadata)
    (cnt a b c d e f : ℕ) (rest : List ℕ) :
    (((PmtilesEncoder.write_header m cnt a b c d e f ++ rest).drop 7).take 1 = [3]) ∧
    (((PmtilesEncoder.write_header m cnt a b c d e f ++ rest).drop 96).take 4 = [1, 2, 2, 1]) ∧
    (((PmtilesEncoder.write_header m cnt a b c d e f ++ rest).drop 8).take 8 =
      PmtilesEncoder.le64 a) ∧
    (((PmtilesEncoder.write_header m cnt a b c d e f ++ rest).drop 24).take 8 =
      PmtilesEncoder.le64 c) ∧
    (((PmtilesEncoder.write_header m cnt a b c d e f ++ rest).drop 56).take 8 =
      PmtilesEncoder.le64 e) ∧
    (((PmtilesEncoder.write_header m cnt a b c d e f ++ rest).drop 72).take 8 =
      PmtilesEncoder.le64 cnt) ∧
    (((PmtilesEncoder.write_header m cnt a b c d e f ++ rest).drop 80).take 8 =
      PmtilesEncoder.le64 cnt) ∧
    (((PmtilesEncoder.write_header m cnt a b c d e f ++ rest).drop 88).take 8 =
      PmtilesEncoder.le64 cnt) := by
  refine ⟨?_, ?_, ?_, ?_, ?_, ?_, ?_, ?_⟩ <;>
    simp only [PmtilesEncoder.write_header, List.append_assoc]
  · rfl
  · rw [show (96 : ℕ) =
        8 + (8 + (8 + (8 + (8 + (8 + (8 + (8 + (8 + (8 + (8 + (8 + 0))))))))))) from rfl,
      drop_magic_block, drop_le64_block, drop_le64_block, drop_le64_block, drop_le64_block,
      drop_le64_block, drop_le64_block, drop_le64_block, drop_le64_block, drop_le64_block,
      drop_le64_block, drop_le64_block, List.drop_zero]
    rfl
  · nth_rewrite 2 [show (8 : ℕ) = 8 + 0 from rfl]
    rw [drop_magic_block, List.drop_zero, take_le64_block]
  · rw [show (24 : ℕ) = 8 + (8 + (8 + 0)) from rfl,
      drop_magic_block, drop_le64_block, drop_le64_block, List.drop_zero, take_le64_block]
  · rw [show (56 : ℕ) = 8 + (8 + (8 + (8 + (8 + (8 + (8 + 0)))))) from rfl,
      drop_magic_block, drop_le64_block, drop_le64_block, drop_le64_block, drop_le64_block,
      drop_le64_block, drop_le64_block, List.drop_zero, take_le64_block]
  · rw [show (72 : ℕ) = 8 + (8 + (8 + (8 + (8 + (8 + (8 + (8 + (8 + 0)))))))) from rfl,
      drop_magic_block, drop_le64_block, drop_le64_block, drop_le64_block, drop_le64_block,
      drop_le64_block, drop_le64_block, drop_le64_block, drop_le64_block, List.drop_zero,
      take_le64_block]
  · rw [show (80 : ℕ) = 8 + (8 + (8 + (8 + (8 + (8 + (8 + (8 + (8 + (8 + 0))))))))) from rfl,
      drop_magic_block, drop_le64_block, drop_le64_block, drop_le64_block, drop_le64_block,
      drop_le64_block, drop_le64_block, drop_le64_block, drop_le64_block, drop_le64_block,
      List.drop_zero, take_le64_block]
  · rw [show (88 : ℕ) =
        8 + (8 + (8 + (8 + (8 + (8 + (8 + (8 + (8 + (8 + (8 + 0)))))))))) from rfl,
      drop_magic_block, drop_le64_block, drop_le64_block, drop_le64_block, drop_le64_block,
      drop_le64_block, drop_le64_block, drop_le64_block, drop_le64_block, drop_le64_block,
      drop_le64_block, List.drop_zero, take_le64_block]

/-- C5.  On every successful `encode_pmtiles` run (hence on every
successful `generate_pmtiles` run, which returns this buffer unchanged):
byte 7 is `0x03`; bytes 96–99 are `1, 2, 2, 1` (clustered, gzip internal
compression, gzip tile compression, MVT tile type); the three
little-endian `u64` count fields at offsets 72, 80 and 88 all hold the
number of tile entries; and the recorded region offsets are
`root_dir_offset = 127`, `json_metadata_offset = 127 + gzipped-directory
length` and `tile_data_offset = json_metadata_offset + gzipped-metadata
length`. -/
theorem claim_C5 (gzip : List ℕ → List ℕ) (json_metadata : List ℕ)
    (m : PmtilesEncoder.TileMetadata) (tiles : List (TileCoord × List ℕ)) (out : List ℕ)
    (h : PmtilesEncoder.encode_pmtiles gzip json_metadata m tiles = .ok out)
    (hcnt : tiles.length < 2 ^ 64)
    (hoff : 127 + (PmtilesEncoder.encode_directory gzip
        (PmtilesEncoder.tile_entries_of gzip tiles)).length + json_metadata.length < 2 ^ 64) :
    (out.drop 7).take 1 = [3] ∧
    (out.drop 96).take 4 = [1, 2, 2, 1] ∧
    readLE ((out.drop 72).take 8) = tiles.length ∧
    readLE ((out.drop 80).take 8) = tiles.length ∧
    readLE ((out.drop 88).take 8) = tiles.length ∧
    readLE ((out.drop 8).take 8) = 127 ∧
    readLE ((out.drop 24).take 8) =
      127 + (PmtilesEncoder.encode_directory gzip
        (PmtilesEncoder.tile_entries_of gzip tiles)).length ∧
    readLE ((out.drop 56).take 8) =
      127 + (PmtilesEncoder.encode_directory gzip
        (PmtilesEncoder.tile_entries_of gzip tiles)).length + json_metadata.length := by
  have hne : tiles ≠ [] := by
    intro hnil
    rw [hnil] at h
    simp [PmtilesEncoder.encode_pmtiles] at h
  simp only [PmtilesEncoder.encode_pmtiles, if_neg hne, Except.ok.injEq] at h
  have hassoc : out = PmtilesEncoder.write_header m
      (PmtilesEncoder.tile_entries_of gzip tiles).length 127
      (PmtilesEncoder.encode_directory gzip
        (PmtilesEncoder.tile_entries_of gzip tiles)).length
      (127 + (PmtilesEncoder.encode_directory gzip
        (PmtilesEncoder.tile_entries_of gzip tiles)).length)
      json_metadata.length
      (127 + (PmtilesEncoder.encode_directory gzip
        (PmtilesEncoder.tile_entries_of gzip tiles)).length + json_metadata.length)
      (((PmtilesEncoder.tile_entries_of gzip tiles).map (·.length)).sum)
      ++ (PmtilesEncoder.encode_directory gzip (PmtilesEncoder.tile_entries_of gzip tiles)
          ++ (json_metadata
            ++ ((PmtilesEncoder.tile_entries_of gzip tiles).map (·.data)).flatten)) := by
    rw [← h, List.append_assoc, List.append_assoc]
  obtain ⟨s7, s96, s8, s24, s56, s72, s80, s88⟩ := write_header_slices m
    (PmtilesEncoder.tile_entries_of gzip tiles).length 127
    (PmtilesEncoder.encode_directory gzip
      (PmtilesEncoder.tile_entries_of gzip tiles)).length
    (127 + (PmtilesEncoder.encode_directory gzip
      (PmtilesEncoder.tile_entries_of gzip tiles)).length)
    json_metadata.length
    (127 + (PmtilesEncoder.encode_directory gzip
      (PmtilesEncoder.tile_entries_of gzip tiles)).length + json_metadata.length)
    (((PmtilesEncoder.tile_entries_of gzip tiles).map (·.length)).sum)
    (PmtilesEncoder.encode_directory gzip (PmtilesEncoder.tile_entries_of gzip tiles)
      ++ (json_metadata
        ++ ((PmtilesEncoder.tile_entries_of gzip tiles).map (·.data)).flatten))
  have hdl : 127 + (PmtilesEncoder.encode_directory gzip
      (PmtilesEncoder.tile_entries_of gzip tiles)).length < 2 ^ 64 := by omega
  rw [hassoc]
  refine ⟨s7, s96, ?_, ?_, ?_, ?_, ?_, ?_⟩
  · rw [s72, readLE_le64, tile_entries_of_length, Nat.mod_eq_of_lt hcnt]
  · rw [s80, readLE_le64, tile_entries_of_length, Nat.mod_eq_of_lt hcnt]
  · rw [s88, readLE_le64, tile_entries_of_length, Nat.mod_eq_of_lt hcnt]
  · rw [s8, readLE_le64]
    norm_num
  · rw [s24, readLE_le64, Nat.mod_eq_of_lt hdl]
  · rw [s56, readLE_le64, Nat.mod_eq_of_lt hoff]

/-- C5 (witness): the header fields on the concrete one-tile archive
`c5Out` (identity compressor, empty JSON metadata). -/
theorem claim_C5_witness :
    PmtilesEncoder.encode_pmtiles id [] ⟨0, 0, 0, 0, 0, 0, 0, 0⟩
      [(⟨0, 0, 0⟩, [1, 2, 3])] = .ok c5Out ∧
    ([((⟨0, 0, 0⟩ : TileCoord), [1, 2, 3])] : List (TileCoord × List ℕ)).length < 2 ^ 64 ∧
    127 + (PmtilesEncoder.encode_directory id
      (PmtilesEncoder.tile_entries_of id [(⟨0, 0, 0⟩, [1, 2, 3])])).length +
      ([] : List ℕ).length < 2 ^ 64 ∧
    ((c5Out.drop 7).take 1 = [3] ∧
     (c5Out.drop 96).take 4 = [1, 2, 2, 1] ∧
     readLE ((c5Out.drop 72).take 8) =
       ([((⟨0, 0, 0⟩ : TileCoord), [1, 2, 3])] : List (TileCoord × List ℕ)).length ∧
     readLE ((c5Out.drop 80).take 8) =
       ([((⟨0, 0, 0⟩ : TileCoord), [1, 2, 3])] : List (TileCoord × List ℕ)).length ∧
     readLE ((c5Out.drop 88).take 8) =
       ([((⟨0, 0, 0⟩ : TileCoord), [1, 2, 3])] : List (TileCoord × List ℕ)).length ∧
     readLE ((c5Out.drop 8).take 8) = 127 ∧
     readLE ((c5Out.drop 24).take 8) =
       127 + (PmtilesEncoder.encode_directory id
         (PmtilesEncoder.tile_entries_of id [(⟨0, 0, 0⟩, [1, 2, 3])])).length ∧
     readLE ((c5Out.drop 56).take 8) =
       127 + (PmtilesEncoder.encode_directory id
         (PmtilesEncoder.tile_entries_of id [(⟨0, 0, 0⟩, [1, 2, 3])])).length +
         ([] : List ℕ).length) :=
  ⟨rfl, by norm_num, by decide,
    claim_C5 id [] ⟨0, 0, 0, 0, 0, 0, 0, 0⟩ [(⟨0, 0, 0⟩, [1, 2, 3])] c5Out rfl
      (by norm_num) (by decide)⟩

/-- C9.  Every successful `generate_pmtiles` run returns a buffer starting
with the ASCII bytes `"PMTiles"` followed by the version byte `0x03`, of
total length at least 127 (the fixed header size). -/
theorem claim_C9 {F : Type}
    (parse_geojson : List ℕ → Except String (List F))
    (calculate_bounds : List F → Except String (ℤ × ℤ × ℤ × ℤ))
    (mkMetadata : List F → (ℤ × ℤ × ℤ × ℤ) → ℕ → ℕ → PmtilesEncoder.TileMetadata)
    (tiling : List F → ℕ → List (TileCoord × List MvtEncoder.TileFeature))
    (protoEncode : MvtEncoder.Layer → List ℕ)
    (gzip : List ℕ → List ℕ) (json_metadata : List ℕ)
    (geojson_bytes : List ℕ) (min_zoom max_zoom : ℕ) (layer_name : String) (out : List ℕ)
    (h : WasmLib.generate_pmtiles parse_geojson calculate_bounds mkMetadata tiling
        protoEncode gzip json_metadata geojson_bytes min_zoom max_zoom layer_name = .ok out) :
    out.take 8 = [80, 77, 84, 105, 108, 101, 115, 3] ∧ 127 ≤ out.length := by
  unfold WasmLib.generate_pmtiles at h
  cases hG : WasmLib.generate_tiles_with_metadata parse_geojson calculate_bounds mkMetadata
      tiling protoEncode geojson_bytes min_zoom max_zoom layer_name with
  | error e => rw [hG] at h; simp at h
  | ok p =>
    obtain ⟨tfs, md⟩ := p
    rw [hG] at h
    by_cases hne : (tfs.map fun tf => (tf.coord, tf.data)) = []
    · simp [PmtilesEncoder.encode_pmtiles, hne] at h
    · simp only [PmtilesEncoder.encode_pmtiles, if_neg hne, Except.ok.injEq] at h
      constructor
      · rw [← h, List.append_assoc, List.append_assoc]
        simp only [PmtilesEncoder.write_header, List.append_assoc]
        rw [show (8 : ℕ) = ([80, 77, 84, 105, 108, 101, 115, 3] : List ℕ).length from rfl,
          List.take_left]
      · rw [← h]
        simp only [List.length_append, write_header_length]
        omega

/-- C9 (witness): the magic-and-length invariant on the concrete pipeline
output `c9Out`. -/
theorem claim_C9_witness :
    WasmLib.generate_pmtiles (F := Unit)
      (fun _ => .ok [()]) (fun _ => .ok (0, 0, 0, 0))
      (fun _ _ _ _ => ⟨0, 0, 0, 0, 0, 0, 0, 0⟩)
      (fun _ _ => [(⟨0, 0, 0⟩, [⟨.point 0 0, []⟩])])
      (fun _ => [0]) id [] [] 0 0 "t" = .ok c9Out ∧
    (c9Out.take 8 = [80, 77, 84, 105, 108, 101, 115, 3] ∧ 127 ≤ c9Out.length) :=
  ⟨rfl, claim_C9 (fun _ => .ok [()]) (fun _ => .ok (0, 0, 0, 0))
    (fun _ _ _ _ => ⟨0, 0, 0, 0, 0, 0, 0, 0⟩)
    (fun _ _ => [(⟨0, 0, 0⟩, [⟨.point 0 0, []⟩])])
    (fun _ => [0]) id [] [] 0 0 "t" c9Out rfl⟩

end HeaderLayout

section ZoomErrors

/-- If some zoom in the list exceeds 30 and every earlier (≤ 30) zoom's
tiles encode successfully, the zoom loop stops with `InvalidZoom` (the
spec-modelled tiler error). -/
theorem zoomLoop_hits_invalid {F : Type}
    (tiling : List F → ℕ → List (TileCoord × List MvtEncoder.TileFeature))
    (protoEncode : MvtEncoder.Layer → List ℕ) (layer_name : String)
    (features : List F) :
    ∀ zs : List ℕ,
      (∀ z ∈ zs, z ≤ 30 →
        ∃ files, WasmLib.encodeTilesAt protoEncode layer_name (tiling features z) =
          .ok files) →
      (∃ z ∈ zs, 30 < z) →
      WasmLib.zoomLoop tiling protoEncode layer_name features zs =
        .error "InvalidZoom" := by
  intro zs
  induction zs with
  | nil => intro _ hex; simp at hex
  | cons z rest ih =>
    intro hok hex
    by_cases hz : 30 < z
    · simp [WasmLib.zoomLoop, WasmLib.tile_features, hz]
    · have hz' : z ≤ 30 := by omega
      obtain ⟨files, hfiles⟩ := hok z (by simp) hz'
      have hrest : ∃ w ∈ rest, 30 < w := by
        obtain ⟨w, hw, hw30⟩ := hex
        rcases List.mem_cons.mp hw with rfl | hmem
        · omega
        · exact ⟨w, hmem, hw30⟩
      have hih := ih (fun w hw hw30 => hok w (by simp [hw]) hw30) hrest
      simp [WasmLib.zoomLoop, WasmLib.tile_features, hz, hfiles, hih]

/-- C7 (counterexample).  With `min_zoom = 1 > 0 = max_zoom` (and a
trivially succeeding parser and bounds stage) the zoom loop is empty, so
`generate_pmtiles` fails with the empty-archive error "Tiles are empty" —
not with `InvalidZoom` as the claim requires. -/
theorem claim_C7_counterexample :
    WasmLib.generate_pmtiles (F := Unit)
      (fun _ => .ok [()]) (fun _ => .ok (0, 0, 0, 0))
      (fun _ _ _ _ => ⟨0, 0, 0, 0, 0, 0, 0, 0⟩)
      (fun _ _ => [(⟨0, 0, 0⟩, [⟨.point 0 0, []⟩])])
      (fun _ => [0]) id [] [] 1 0 "t" = .error "Tiles are empty" ∧
    (Except.error "Tiles are empty" : Except String (List ℕ)) ≠ .error "InvalidZoom" := by
  exact ⟨rfl, by decide⟩

/-- C7 (amended).  Zoom validation lives only in the (spec-modelled)
tiler, which the zoom loop consults once per zoom in
`min_zoom..=max_zoom`.  Hence, whenever parsing and bounds succeed:
if `min_zoom > max_zoom` the loop is empty, tile generation succeeds with
an empty list and `generate_pmtiles` fails with the empty-archive error
"Tiles are empty", not `InvalidZoom`; if `min_zoom ≤ max_zoom` and
`max_zoom > 30`, then — provided every tile at the zooms ≤ 30 encodes
successfully — all three entry points fail with `InvalidZoom`. -/
theorem claim_C7 {F : Type}
    (parse_geojson : List ℕ → Except String (List F))
    (calculate_bounds : List F → Except String (ℤ × ℤ × ℤ × ℤ))
    (mkMetadata : List F → (ℤ × ℤ × ℤ × ℤ) → ℕ → ℕ → PmtilesEncoder.TileMetadata)
    (tiling : List F → ℕ → List (TileCoord × List MvtEncoder.TileFeature))
    (protoEncode : MvtEncoder.Layer → List ℕ)
    (gzip : List ℕ → List ℕ) (json_metadata : List ℕ)
    (geojson_bytes : List ℕ) (min_zoom max_zoom : ℕ) (layer_name : String)
    (fs : List F) (bounds : ℤ × ℤ × ℤ × ℤ)
    (hp : parse_geojson geojson_bytes = .ok fs)
    (hb : calculate_bounds fs = .ok bounds) :
    (max_zoom < min_zoom →
      WasmLib.generate_tiles_with_metadata parse_geojson calculate_bounds mkMetadata tiling
          protoEncode geojson_bytes min_zoom max_zoom layer_name =
        .ok ([], mkMetadata fs bounds min_zoom max_zoom) ∧
      WasmLib.generate_tiles parse_geojson calculate_bounds mkMetadata tiling
          protoEncode geojson_bytes min_zoom max_zoom layer_name = .ok [] ∧
      WasmLib.generate_pmtiles parse_geojson calculate_bounds mkMetadata tiling
          protoEncode gzip json_metadata geojson_bytes min_zoom max_zoom layer_name =
        .error "Tiles are empty") ∧
    (min_zoom ≤ max_zoom → 30 < max_zoom →
      (∀ z, min_zoom ≤ z → z ≤ 30 →
        ∃ files, WasmLib.encodeTilesAt protoEncode layer_name (tiling fs z) = .ok files) →
      WasmLib.generate_tiles_with_metadata parse_geojson calculate_bounds mkMetadata tiling
          protoEncode geojson_bytes min_zoom max_zoom layer_name = .error "InvalidZoom" ∧
      WasmLib.generate_tiles parse_geojson calculate_bounds mkMetadata tiling
          protoEncode geojson_bytes min_zoom max_zoom layer_name = .error "InvalidZoom" ∧
      WasmLib.generate_pmtiles parse_geojson calculate_bounds mkMetadata tiling
          protoEncode gzip json_metadata geojson_bytes min_zoom max_zoom layer_name =
        .error "InvalidZoom") := by
  constructor
  · intro hlt
    have hrange : max_zoom + 1 - min_zoom = 0 := by omega
    have hG : WasmLib.generate_tiles_with_metadata parse_geojson calculate_bounds mkMetadata
        tiling protoEncode geojson_bytes min_zoom max_zoom layer_name =
        .ok ([], mkMetadata fs bounds min_zoom max_zoom) := by
      simp [WasmLib.generate_tiles_with_metadata, hp, hb, hrange, WasmLib.zoomLoop]
    refine ⟨hG, ?_, ?_⟩
    · simp [WasmLib.generate_tiles, hG, Except.map]
    · simp [WasmLib.generate_pmtiles, hG, PmtilesEncoder.encode_pmtiles]
  · intro hle hmax hok
    have hmem : ∃ z ∈ List.range' min_zoom (max_zoom + 1 - min_zoom), 30 < z := by
      refine ⟨max_zoom, ?_, hmax⟩
      rw [List.mem_range'_1]
      omega
    have hok' : ∀ z ∈ List.range' min_zoom (max_zoom + 1 - min_zoom), z ≤ 30 →
        ∃ files, WasmLib.encodeTilesAt protoEncode layer_name (tiling fs z) = .ok files := by
      intro z hz hz30
      rw [List.mem_range'_1] at hz
      exact hok z hz.1 hz30
    have hloop := zoomLoop_hits_invalid tiling protoEncode layer_name fs
      (List.range' min_zoom (max_zoom + 1 - min_zoom)) hok' hmem
    have hG : WasmLib.generate_tiles_with_metadata parse_geojson calculate_bounds mkMetadata
        tiling protoEncode geojson_bytes min_zoom max_zoom layer_name =
        .error "InvalidZoom" := by
      simp [WasmLib.generate_tiles_with_metadata, hp, hb, hloop]
    refine ⟨hG, ?_, ?_⟩
    · simp [WasmLib.generate_tiles, hG, Except.map]
    · simp [WasmLib.generate_pmtiles, hG]

/-- C7 (witness): the amended behaviour at a concrete instantiation — the
theorem applied with a trivially succeeding parser and bounds stage. -/
theorem claim_C7_witness :
    ((fun (_ : List ℕ) => (Except.ok [()] : Except String (List Unit))) [] = .ok [()]) ∧
    ((fun (_ : List Unit) => (Except.ok ((0, 0, 0, 0) : ℤ × ℤ × ℤ × ℤ) :
        Except String (ℤ × ℤ × ℤ × ℤ))) [()] = .ok (0, 0, 0, 0)) ∧
    ((0 < 1 →
      WasmLib.generate_tiles_with_metadata (F := Unit)
          (fun _ => .ok [()]) (fun _ => .ok (0, 0, 0, 0))
          (fun _ _ _ _ => ⟨0, 0, 0, 0, 0, 0, 0, 0⟩) (fun _ _ => [])
          (fun _ => [0]) [] 1 0 "t" =
        .ok ([], (fun (_ : List Unit) (_ : ℤ × ℤ × ℤ × ℤ) (_ _ : ℕ) =>
          (⟨0, 0, 0, 0, 0, 0, 0, 0⟩ : PmtilesEncoder.TileMetadata)) [()] (0, 0, 0, 0) 1 0) ∧
      WasmLib.generate_tiles (F := Unit)
          (fun _ => .ok [()]) (fun _ => .ok (0, 0, 0, 0))
          (fun _ _ _ _ => ⟨0, 0, 0, 0, 0, 0, 0, 0⟩) (fun _ _ => [])
          (fun _ => [0]) [] 1 0 "t" = .ok [] ∧
      WasmLib.generate_pmtiles (F := Unit)
          (fun _ => .ok [()]) (fun _ => .ok (0, 0, 0, 0))
          (fun _ _ _ _ => ⟨0, 0, 0, 0, 0, 0, 0, 0⟩) (fun _ _ => [])
          (fun _ => [0]) id [] [] 1 0 "t" = .error "Tiles are empty") ∧
     (1 ≤ 0 → 30 < 0 →
      (∀ z, 1 ≤ z → z ≤ 30 →
        ∃ files, WasmLib.encodeTilesAt (fun _ => [0]) "t"
          ((fun (_ : List Unit) (_ : ℕ) =>
            ([] : List (TileCoord × List MvtEncoder.TileFeature))) [()] z) = .ok files) →
      WasmLib.generate_tiles_with_metadata (F := Unit)
          (fun _ => .ok [()]) (fun _ => .ok (0, 0, 0, 0))
          (fun _ _ _ _ => ⟨0, 0, 0, 0, 0, 0, 0, 0⟩) (fun _ _ => [])
          (fun _ => [0]) [] 1 0 "t" = .error "InvalidZoom" ∧
      WasmLib.generate_tiles (F := Unit)
          (fun _ => .ok [()]) (fun _ => .ok (0, 0, 0, 0))
          (fun _ _ _ _ => ⟨0, 0, 0, 0, 0, 0, 0, 0⟩) (fun _ _ => [])
          (fun _ => [0]) [] 1 0 "t" = .error "InvalidZoom" ∧
      WasmLib.generate_pmtiles (F := Unit)
          (fun _ => .ok [()]) (fun _ => .ok (0, 0, 0, 0))
          (fun _ _ _ _ => ⟨0, 0, 0, 0, 0, 0, 0, 0⟩) (fun _ _ => [])
          (fun _ => [0]) id [] [] 1 0 "t" = .error "InvalidZoom")) :=
  ⟨rfl, rfl,
    claim_C7 (F := Unit) (fun _ => .ok [()]) (fun _ => .ok (0, 0, 0, 0))
      (fun _ _ _ _ => ⟨0, 0, 0, 0, 0, 0, 0, 0⟩) (fun _ _ => [])
      (fun _ => [0]) id [] [] 1 0 "t" [()] (0, 0, 0, 0) rfl rfl⟩

end ZoomErrors

section Interning

open MvtEncoder

/-- First-appearance indices are stable under appending on the right. -/
theorem firstIdx_append_of_mem {α : Type} [DecidableEq α] :
    ∀ (l t : List α) (a : α), a ∈ l → firstIdx (l ++ t) a = firstIdx l a := by
  intro l
  induction l with
  | nil => intro t a ha; simp at ha
  | cons b rest ih =>
    intro t a ha
    by_cases hab : a = b
    · simp [firstIdx, hab]
    · have : a ∈ rest := by
        rcases List.mem_cons.mp ha with h | h
        · exact absurd h hab
        · exact h
      simp [firstIdx, hab, ih t a this]

/-- A fresh element appended on the right is found at the old length. -/
theorem firstIdx_append_self {α : Type} [DecidableEq α] :
    ∀ (l : List α) (a : α), a ∉ l → firstIdx (l ++ [a]) a = l.length := by
  intro l
  induction l with
  | nil => intro a _; simp [firstIdx]
  | cons b rest ih =>
    intro a ha
    have hab : a ≠ b := fun h => ha (by simp [h])
    have : a ∉ rest := fun h => ha (by simp [h])
    simp [firstIdx, hab, ih a this]

/-- `Grows` is reflexive. -/
theorem Grows.refl {α : Type} (l : List α) : Grows l l := ⟨[], by simp⟩

/-- `Grows` is transitive. -/
theorem Grows.trans {α : Type} {a b c : List α} (h1 : Grows a b) (h2 : Grows b c) :
    Grows a c := by
  obtain ⟨t1, rfl⟩ := h1
  obtain ⟨t2, rfl⟩ := h2
  exact ⟨t1 ++ t2, by simp⟩

/-- `Grows` is preserved by `map`. -/
theorem Grows.map {α β : Type} {a b : List α} (f : α → β) (h : Grows a b) :
    Grows (a.map f) (b.map f) := by
  obtain ⟨t, rfl⟩ := h
  exact ⟨t.map f, by simp⟩

/-- Members of the smaller list keep their first-appearance index in any
`Grows`-extension. -/
theorem Grows.firstIdx_eq {α : Type} [DecidableEq α] {l m : List α} (h : Grows l m)
    (a : α) (ha : a ∈ l) : firstIdx m a = firstIdx l a := by
  obtain ⟨t, rfl⟩ := h
  exact firstIdx_append_of_mem l t a ha

/-- Members persist along `Grows`. -/
theorem Grows.mem {α : Type} {l m : List α} (h : Grows l m) {a : α} (ha : a ∈ l) :
    a ∈ m := by
  obtain ⟨t, rfl⟩ := h
  exact List.mem_append_left t ha

/-- One claim-side interning step only appends. -/
theorem specStepProp_grows (st : List String × List JsonValue)
    (p : String × JsonValue) :
    Grows st.1 (specStepProp st p).1 ∧ Grows st.2 (specStepProp st p).2 := by
  constructor
  · by_cases h : p.1 ∈ st.1 <;> simp [specStepProp, h, Grows.refl] <;> exact ⟨[p.1], rfl⟩
  · by_cases h : ValueKey.from_json p.2 ∈ st.2.map ValueKey.from_json <;>
      simp [specStepProp, h, Grows.refl] <;> exact ⟨[p.2], rfl⟩

/-- The claim-side fold only appends. -/
theorem specFold_grows :
    ∀ (ps : List (String × JsonValue)) (st : List String × List JsonValue),
      Grows st.1 (ps.foldl specStepProp st).1 ∧ Grows st.2 (ps.foldl specStepProp st).2 := by
  intro ps
  induction ps with
  | nil => intro st; exact ⟨Grows.refl _, Grows.refl _⟩
  | cons p rest ih =>
    intro st
    obtain ⟨h1, h2⟩ := specStepProp_grows st p
    obtain ⟨h1', h2'⟩ := ih (specStepProp st p)
    exact ⟨h1.trans h1', h2.trans h2'⟩

/-- `internKey` refines a claim-side key-interning step, and the returned
index is the first-appearance index in the grown dictionary. -/
theorem internKey_spec (st : DictState) (ks : List String) (vs : List JsonValue)
    (k : String) (hinv : DictInv st ks vs) :
    DictInv (internKey st k).1 (if k ∈ ks then ks else ks ++ [k]) vs ∧
    (internKey st k).2 = firstIdx (if k ∈ ks then ks else ks ++ [k]) k ∧
    k ∈ (if k ∈ ks then ks else ks ++ [k]) := by
  obtain ⟨hkeys, hvals, hki, hvi⟩ := hinv
  by_cases hk : k ∈ ks
  · simp only [if_pos hk]
    have hstep : internKey st k = (st, firstIdx ks k) := by
      unfold internKey
      rw [hki k, if_pos hk]
    rw [hstep]
    exact ⟨⟨hkeys, hvals, hki, hvi⟩, rfl, hk⟩
  · simp only [if_neg hk]
    have hstep : internKey st k =
        ({ st with
            keys := st.keys ++ [k],
            key_index := (k, st.keys.length) :: st.key_index }, st.keys.length) := by
      unfold internKey
      rw [hki k, if_neg hk]
    rw [hstep]
    refine ⟨⟨by simp [hkeys], by simp [hvals], ?_, by simpa using hvi⟩, ?_, by simp⟩
    · intro k'
      by_cases hk' : k' = k
      · simp [assocLookup, hk', hkeys, firstIdx_append_self ks k hk]
      · by_cases hmem' : k' ∈ ks
        · simp [assocLookup, hk', hki k', hmem', firstIdx_append_of_mem ks [k] k' hmem']
        · simp [assocLookup, hk', hki k', hmem']
    · simp [hkeys, firstIdx_append_self ks k hk]

/-- `internValue` refines a claim-side value-interning step (deduplication
by `ValueKey`), and the returned index is the first-appearance index of
the value's key in the grown value dictionary. -/
theorem internValue_spec (st : DictState) (ks : List String) (vs : List JsonValue)
    (v : JsonValue) (hinv : DictInv st ks vs) :
    DictInv (internValue st v).1 ks
      (if ValueKey.from_json v ∈ vs.map ValueKey.from_json then vs else vs ++ [v]) ∧
    (internValue st v).2 =
      firstIdx ((if ValueKey.from_json v ∈ vs.map ValueKey.from_json then vs
        else vs ++ [v]).map ValueKey.from_json) (ValueKey.from_json v) ∧
    ValueKey.from_json v ∈
      ((if ValueKey.from_json v ∈ vs.map ValueKey.from_json then vs
        else vs ++ [v]).map ValueKey.from_json) := by
  obtain ⟨hkeys, hvals, hki, hvi⟩ := hinv
  by_cases hv : ValueKey.from_json v ∈ vs.map ValueKey.from_json
  · simp only [if_pos hv]
    have hstep : internValue st v =
        (st, firstIdx (vs.map ValueKey.from_json) (ValueKey.from_json v)) := by
      simp only [internValue]
      rw [hvi (ValueKey.from_json v), if_pos hv]
    rw [hstep]
    exact ⟨⟨hkeys, hvals, hki, hvi⟩, rfl, hv⟩
  · simp only [if_neg hv]
    have hstep : internValue st v =
        ({ st with
            values := st.values ++ [json_to_mvt_value v],
            value_index :=
              (ValueKey.from_json v, st.values.length) :: st.value_index },
          st.values.length) := by
      simp only [internValue]
      rw [hvi (ValueKey.from_json v), if_neg hv]
    rw [hstep]
    have hmapapp : (vs ++ [v]).map ValueKey.from_json =
        vs.map ValueKey.from_json ++ [ValueKey.from_json v] := by simp
    refine ⟨⟨by simp [hkeys], by simp [hvals], by simpa using hki, ?_⟩, ?_, by simp⟩
    · intro vk
      by_cases hvk : vk = ValueKey.from_json v
      · simp [assocLookup, hvk, hvals, hmapapp,
          firstIdx_append_self (vs.map ValueKey.from_json) (ValueKey.from_json v) hv]
      · by_cases hmem' : vk ∈ vs.map ValueKey.from_json
        · simp [assocLookup, hvk, hvi vk, hmapapp, hmem',
            firstIdx_append_of_mem (vs.map ValueKey.from_json) _ vk hmem']
        · simp [assocLookup, hvk, hvi vk, hmapapp, hmem']
    · simp [hvals, hmapapp,
        firstIdx_append_self (vs.map ValueKey.from_json) (ValueKey.from_json v) hv]

/-- The property loop refines the claim-side dictionary fold, and every
emitted tag pair is the first-appearance index of its key (resp. its
value's `ValueKey`) in any extension of the final dictionaries. -/
theorem encodeFeatureTags_spec :
    ∀ (ps : List (String × JsonValue)) (st : DictState) (ks : List String)
      (vs : List JsonValue) (KS : List String) (VS : List JsonValue),
      DictInv st ks vs →
      Grows (ps.foldl specStepProp (ks, vs)).1 KS →
      Grows (ps.foldl specStepProp (ks, vs)).2 VS →
      DictInv (encodeFeatureTags st ps).1 (ps.foldl specStepProp (ks, vs)).1
        (ps.foldl specStepProp (ks, vs)).2 ∧
      (encodeFeatureTags st ps).2 =
        (ps.map fun p => [firstIdx KS p.1,
          firstIdx (VS.map ValueKey.from_json) (ValueKey.from_json p.2)]).flatten := by
  intro ps
  induction ps with
  | nil =>
    intro st ks vs KS VS hinv _ _
    exact ⟨hinv, rfl⟩
  | cons p rest ih =>
    obtain ⟨k, v⟩ := p
    intro st ks vs KS VS hinv hgk hgv
    rw [List.foldl_cons] at hgk hgv ⊢
    have hsp : specStepProp (ks, vs) (k, v) =
        (if k ∈ ks then ks else ks ++ [k],
         if ValueKey.from_json v ∈ vs.map ValueKey.from_json then vs else vs ++ [v]) := rfl
    rw [hsp] at hgk hgv ⊢
    obtain ⟨hinv1, hi1, hmem1⟩ := internKey_spec st ks vs k hinv
    obtain ⟨hinv2, hi2, hmem2⟩ :=
      internValue_spec (internKey st k).1 (if k ∈ ks then ks else ks ++ [k]) vs v hinv1
    obtain ⟨ihinv, ihtags⟩ := ih (internValue (internKey st k).1 v).1
      (if k ∈ ks then ks else ks ++ [k])
      (if ValueKey.from_json v ∈ vs.map ValueKey.from_json then vs else vs ++ [v])
      KS VS hinv2 hgk hgv
    have hgks1 : Grows (if k ∈ ks then ks else ks ++ [k]) KS :=
      (specFold_grows rest ((if k ∈ ks then ks else ks ++ [k]),
        (if ValueKey.from_json v ∈ vs.map ValueKey.from_json then vs
          else vs ++ [v]))).1.trans hgk
    have hgvs1 : Grows (if ValueKey.from_json v ∈ vs.map ValueKey.from_json then vs
        else vs ++ [v]) VS :=
      (specFold_grows rest ((if k ∈ ks then ks else ks ++ [k]),
        (if ValueKey.from_json v ∈ vs.map ValueKey.from_json then vs
          else vs ++ [v]))).2.trans hgv
    have e1 : (internKey st k).2 = firstIdx KS k := by
      rw [hi1]
      exact (hgks1.firstIdx_eq k hmem1).symm
    have e2 : (internValue (internKey st k).1 v).2 =
        firstIdx (VS.map ValueKey.from_json) (ValueKey.from_json v) := by
      rw [hi2]
      exact ((hgvs1.map ValueKey.from_json).firstIdx_eq _ hmem2).symm
    refine ⟨?_, ?_⟩
    · simpa [encodeFeatureTags] using ihinv
    · simp [encodeFeatureTags, e1, e2, ihtags]

/-- The feature loop refines the claim-side scan across features, and the
emitted `tags` arrays are the flattened first-appearance index pairs of
each feature's properties in the final dictionaries. -/
theorem encodeFeatures_spec :
    ∀ (fl : List TileFeature) (st : DictState) (idx : ℕ) (ks : List String)
      (vs : List JsonValue) (KS : List String) (VS : List JsonValue)
      (st2 : DictState) (mfs : List MvtFeature),
      DictInv st ks vs →
      encodeFeatures st idx fl = .ok (st2, mfs) →
      Grows (((fl.map (·.properties)).flatten).foldl specStepProp (ks, vs)).1 KS →
      Grows (((fl.map (·.properties)).flatten).foldl specStepProp (ks, vs)).2 VS →
      DictInv st2 (((fl.map (·.properties)).flatten).foldl specStepProp (ks, vs)).1
        (((fl.map (·.properties)).flatten).foldl specStepProp (ks, vs)).2 ∧
      mfs.map (·.tags) = fl.map (fun f => (f.properties.map fun p =>
        [firstIdx KS p.1,
         firstIdx (VS.map ValueKey.from_json) (ValueKey.from_json p.2)]).flatten) := by
  intro fl
  induction fl with
  | nil =>
    intro st idx ks vs KS VS st2 mfs hinv h _ _
    simp only [encodeFeatures, Except.ok.injEq, Prod.mk.injEq] at h
    obtain ⟨h1, h2⟩ := h
    subst h1
    subst h2
    exact ⟨hinv, rfl⟩
  | cons f rest ih =>
    intro st idx ks vs KS VS st2 mfs hinv h hgk hgv
    have hsplit : (((f :: rest).map (·.properties)).flatten) =
        f.properties ++ ((rest.map (·.properties)).flatten) := by simp
    rw [hsplit, List.foldl_append] at hgk hgv ⊢
    have hgk1 : Grows (f.properties.foldl specStepProp (ks, vs)).1 KS :=
      (specFold_grows ((rest.map (·.properties)).flatten)
        (f.properties.foldl specStepProp (ks, vs))).1.trans hgk
    have hgv1 : Grows (f.properties.foldl specStepProp (ks, vs)).2 VS :=
      (specFold_grows ((rest.map (·.properties)).flatten)
        (f.properties.foldl specStepProp (ks, vs))).2.trans hgv
    obtain ⟨hinv1, htags⟩ := encodeFeatureTags_spec f.properties st ks vs KS VS hinv hgk1 hgv1
    simp only [encodeFeatures] at h
    cases hgeom : encode_geometry f.geometry with
    | error e =>
      rw [hgeom] at h
      simp at h
    | ok gg =>
      obtain ⟨gt, geom⟩ := gg
      rw [hgeom] at h
      cases hrec : encodeFeatures (encodeFeatureTags st f.properties).1 (idx + 1) rest with
      | error e =>
        rw [hrec] at h
        simp at h
      | ok pr =>
        obtain ⟨st2', feats⟩ := pr
        rw [hrec] at h
        simp only [Except.ok.injEq, Prod.mk.injEq] at h
        obtain ⟨h1, h2⟩ := h
        subst h1
        subst h2
        obtain ⟨ihinv, ihtags⟩ := ih (encodeFeatureTags st f.properties).1 (idx + 1)
          (f.properties.foldl specStepProp (ks, vs)).1
          (f.properties.foldl specStepProp (ks, vs)).2
          KS VS st2' feats hinv1 hrec hgk hgv
        exact ⟨ihinv, by simp [htags, ihtags]⟩

/-- C8.  In every layer built by the MVT encoder, keys and values are
interned in first-appearance order while scanning features (and their
properties) in order: `keys` is exactly the claim-side first-appearance
key dictionary, `values` the claim-side value dictionary deduplicated by
`(type, payload)` (`ValueKey`) equality mapped through `json_to_mvt_value`,
and every feature's `tags` array holds the first-appearance index of each
property's key and value — so later occurrences reuse the established
indices. -/
theorem claim_C8 (features : List MvtEncoder.TileFeature) (layer_name : String)
    (L : MvtEncoder.Layer)
    (h : MvtEncoder.build_layer features layer_name = .ok L) :
    L.keys = (specDicts ((features.map (·.properties)).flatten)).1 ∧
    L.values = (specDicts ((features.map (·.properties)).flatten)).2.map
      MvtEncoder.json_to_mvt_value ∧
    L.features.map (·.tags) = features.map (fun f => (f.properties.map fun p =>
      [firstIdx (specDicts ((features.map (·.properties)).flatten)).1 p.1,
       firstIdx ((specDicts ((features.map (·.properties)).flatten)).2.map
         MvtEncoder.ValueKey.from_json) (MvtEncoder.ValueKey.from_json p.2)]).flatten) := by
  have hne : features ≠ [] := by
    intro hnil
    rw [hnil] at h
    simp [MvtEncoder.build_layer] at h
  simp only [MvtEncoder.build_layer, if_neg hne] at h
  cases hE : MvtEncoder.encodeFeatures ⟨[], [], [], []⟩ 0 features with
  | error e =>
    rw [hE] at h
    simp at h
  | ok pr =>
    obtain ⟨st, feats⟩ := pr
    rw [hE] at h
    simp only [Except.ok.injEq] at h
    have hinv0 : DictInv ⟨[], [], [], []⟩ [] [] := by
      refine ⟨rfl, rfl, ?_, ?_⟩ <;> intro x <;> simp [MvtEncoder.assocLookup]
    obtain ⟨hinvF, htags⟩ := encodeFeatures_spec features ⟨[], [], [], []⟩ 0 [] []
      (((features.map (·.properties)).flatten).foldl specStepProp ([], [])).1
      (((features.map (·.properties)).flatten).foldl specStepProp ([], [])).2
      st feats hinv0 hE (Grows.refl _) (Grows.refl _)
    obtain ⟨hkeys, hvals, _, _⟩ := hinvF
    rw [← h]
    exact ⟨hkeys, hvals, htags⟩

/-- C8 (witness): the two-feature `{"color":"red"}` scenario — the
interning characterisation applied to the concrete layer `c8Layer`, whose
dictionaries and tags also evaluate to `["color"]`,
`[{string_value := "red"}]` and `[0,0]`/`[0,0]` as the claim states. -/
theorem claim_C8_witness :
    MvtEncoder.build_layer
      [⟨.point 0 0, [("color", .str "red")]⟩, ⟨.point 1 2, [("color", .str "red")]⟩]
      "pts" = .ok c8Layer ∧
    (c8Layer.keys =
      (specDicts ((([⟨.point 0 0, [("color", .str "red")]⟩,
        ⟨.point 1 2, [("color", .str "red")]⟩] : List MvtEncoder.TileFeature).map
          (·.properties)).flatten)).1 ∧
     c8Layer.values =
      (specDicts ((([⟨.point 0 0, [("color", .str "red")]⟩,
        ⟨.point 1 2, [("color", .str "red")]⟩] : List MvtEncoder.TileFeature).map
          (·.properties)).flatten)).2.map MvtEncoder.json_to_mvt_value ∧
     c8Layer.features.map (·.tags) =
      ([⟨.point 0 0, [("color", .str "red")]⟩,
        ⟨.point 1 2, [("color", .str "red")]⟩] : List MvtEncoder.TileFeature).map
        (fun f => (f.properties.map fun p =>
          [firstIdx (specDicts ((([⟨.point 0 0, [("color", .str "red")]⟩,
            ⟨.point 1 2, [("color", .str "red")]⟩] : List MvtEncoder.TileFeature).map
              (·.properties)).flatten)).1 p.1,
           firstIdx ((specDicts ((([⟨.point 0 0, [("color", .str "red")]⟩,
            ⟨.point 1 2, [("color", .str "red")]⟩] : List MvtEncoder.TileFeature).map
              (·.properties)).flatten)).2.map MvtEncoder.ValueKey.from_json)
             (MvtEncoder.ValueKey.from_json p.2)]).flatten)) ∧
    c8Layer.keys = ["color"] ∧
    c8Layer.values = [{ string_value := some "red" }] ∧
    c8Layer.features.map (·.tags) = [[0, 0], [0, 0]] :=
  ⟨rfl,
    claim_C8 [⟨.point 0 0, [("color", .str "red")]⟩, ⟨.point 1 2, [("color", .str "red")]⟩]
      "pts" c8Layer rfl,
    by decide, by decide, by decide⟩

end Interning
